import Mathlib

/-!
Verification of the PINTOS file-system core: a shallow embedding of the
buffer cache (src/filesys/cache.c), the inode layer (src/filesys/inode.c),
path handling (src/filesys/path.c) and the `remove` syscall (src/filesys/fd.c),
together with theorems settling the specification claims.

Machine integers: all quantities involved (sector numbers, byte offsets,
lengths up to ~8.5 MB) fit comfortably in the C types (`int`, `off_t`,
`block_sector_t`), so they are modelled as `Nat` (timestamps, which are
`int64_t` ticks, as `Int`).  Sector-sized byte buffers are `List Nat`;
sectors holding 128 little-endian sector pointers are viewed as functions
`Nat → Nat` (index to stored pointer), matching how inode.c reads them.
-/

namespace PintosFS

/-! ## Buffer cache (src/filesys/cache.c, src/filesys/cache.h) -/

/-- BLOCK_SECTOR_SIZE from devices/block.h. -/
def BLOCK_SECTOR_SIZE : Nat := 512

/-- MAX_CACHE_SECTORS from cache.h. -/
def MAX_CACHE_SECTORS : Nat := 64

/-- One sector worth of bytes. -/
abbrev SectorData := List Nat

/-- struct cache_block from cache.h (the intrusive list element is the
position in the cache list; the lock lives outside the model). -/
structure CacheBlock where
  dirty : Bool
  free : Bool
  dev : Nat
  sector : Nat
  buffer : SectorData
  lastTouched : Int
  deriving Repr, DecidableEq

instance : Inhabited CacheBlock :=
  ⟨{ dirty := false, free := true, dev := 0, sector := 0, buffer := [], lastTouched := 0 }⟩

/-- Observable device I/O issued by the cache (calls to block_read /
block_write on the underlying device). -/
inductive DevEvent where
  | devRead (dev sector : Nat)
  | devWrite (dev sector : Nat) (data : SectorData)
  deriving Repr, DecidableEq

/-- The comparator cache_nru_sort (cache.c lines 5-10):
strictly smaller last_touched comes first. -/
def cache_nru_sort (a b : CacheBlock) : Bool :=
  a.lastTouched < b.lastTouched

/-- Modelled from the spec: pintos lib list_min (lib/kernel/list.c is not in
src/) returns the first list element e such that no later element is
strictly less than e; here specialised to the cache_nru_sort comparator,
returning the index of the first entry with minimal last_touched. -/
def listMinIdxAux : List CacheBlock → Nat → Nat → Int → Nat
  | [], _, best, _ => best
  | b :: rest, i, best, bestVal =>
    if b.lastTouched < bestVal then listMinIdxAux rest (i + 1) i b.lastTouched
    else listMinIdxAux rest (i + 1) best bestVal

/-- Index of the entry list_min picks under cache_nru_sort. -/
def listMinIdx : List CacheBlock → Nat
  | [] => 0
  | b :: rest => listMinIdxAux rest 1 0 b.lastTouched

/-- Modelled from the spec: pintos lib list_sort (lib/kernel/list.c is not in
src/) is a stable sort by the given comparator; modelled as stable
insertion placing an element before the first strictly greater one. -/
def listSortInsert (b : CacheBlock) : List CacheBlock → List CacheBlock
  | [] => [b]
  | c :: rest =>
    if b.lastTouched < c.lastTouched then b :: c :: rest
    else c :: listSortInsert b rest

/-- list_sort of the cache list under cache_nru_sort. -/
def list_sort : List CacheBlock → List CacheBlock
  | [] => []
  | b :: rest => listSortInsert b (list_sort rest)

/-- The linear scan in block_cache_read_offset / block_cache_write_offset:
index of the first entry with !free && matching device and sector. -/
def cacheFind (blocks : List CacheBlock) (dev sector : Nat) : Option Nat :=
  blocks.findIdx? (fun b => !b.free && b.dev == dev && b.sector == sector)

/-- block_cache_nru_evict (cache.c lines 12-24): pick the list_min victim;
if it is non-free and dirty write its buffer back to its original
(device, sector); mark it free and clean.  Returns the victim index, the
device events issued, and the updated list. -/
def block_cache_nru_evict (blocks : List CacheBlock) :
    Nat × List DevEvent × List CacheBlock :=
  let i := listMinIdx blocks
  let b := blocks.getD i default
  let evs := if !b.free && b.dirty then [DevEvent.devWrite b.dev b.sector b.buffer] else []
  (i, evs, blocks.set i { b with free := true, dirty := false })

/-- memcpy(buffer, b->buffer + sector_ofs, chunk_size): the chunk read out. -/
def readBytes (buf : SectorData) (ofs len : Nat) : SectorData :=
  (buf.drop ofs).take len

/-- memcpy(b->buffer + sector_ofs, buffer, chunk_size): overwrite len = src
length bytes of buf starting at ofs. -/
def memWrite (buf : SectorData) (ofs : Nat) (src : SectorData) : SectorData :=
  buf.take ofs ++ src ++ buf.drop (ofs + src.length)

/-- block_cache_read_offset (cache.c lines 41-80).  `disk` gives the current
device contents; `now` is the timer_ticks() reading.  Returns the bytes
copied to the caller, the device events issued, and the new cache list. -/
def block_cache_read_offset (disk : Nat → Nat → SectorData) (now : Int)
    (dev sector ofs len : Nat) (blocks : List CacheBlock) :
    SectorData × List DevEvent × List CacheBlock :=
  match cacheFind blocks dev sector with
  | some i =>
    let b := blocks.getD i default
    let out := readBytes b.buffer ofs len
    (out, [], list_sort (blocks.set i { b with lastTouched := now }))
  | none =>
    let r := block_cache_nru_evict blocks
    let b := r.2.2.getD r.1 default
    let data := disk dev sector
    let b := { b with dev := dev, sector := sector, free := false,
                      buffer := data, lastTouched := now }
    (readBytes data ofs len, r.2.1 ++ [DevEvent.devRead dev sector],
     list_sort (r.2.2.set r.1 b))

/-- block_cache_read (cache.c lines 82-84). -/
def block_cache_read (disk : Nat → Nat → SectorData) (now : Int)
    (dev sector : Nat) (blocks : List CacheBlock) :
    SectorData × List DevEvent × List CacheBlock :=
  block_cache_read_offset disk now dev sector 0 BLOCK_SECTOR_SIZE blocks

/-- block_cache_write_offset (cache.c lines 86-129).  On a hit the chunk is
copied into the cached buffer, the entry is marked dirty and no device
I/O happens.  On a miss the victim is refilled from the device
(unconditionally, lines 118-119), the chunk is applied, and the whole
sector is written straight back to the device (line 122); the dirty flag
is left false (block_cache_nru_evict cleared it and this path never sets
it). -/
def block_cache_write_offset (disk : Nat → Nat → SectorData) (now : Int)
    (dev sector ofs : Nat) (src : SectorData) (blocks : List CacheBlock) :
    List DevEvent × List CacheBlock :=
  match cacheFind blocks dev sector with
  | some i =>
    let b := blocks.getD i default
    let b := { b with buffer := memWrite b.buffer ofs src, dirty := true, lastTouched := now }
    ([], list_sort (blocks.set i b))
  | none =>
    let r := block_cache_nru_evict blocks
    let b := r.2.2.getD r.1 default
    let data := memWrite (disk dev sector) ofs src
    let b := { b with dev := dev, sector := sector, free := false,
                      buffer := data, lastTouched := now }
    (r.2.1 ++ [DevEvent.devRead dev sector, DevEvent.devWrite dev sector data],
     list_sort (r.2.2.set r.1 b))

/-- block_cache_write (cache.c lines 131-133). -/
def block_cache_write (disk : Nat → Nat → SectorData) (now : Int)
    (dev sector : Nat) (src : SectorData) (blocks : List CacheBlock) :
    List DevEvent × List CacheBlock :=
  block_cache_write_offset disk now dev sector 0 src blocks

/-- block_cache_init (cache.c lines 26-39): 64 free clean entries whose
last_touched fields are successive timer_ticks() readings, given here as
the list `ts` (the C code leaves dev/sector/buffer uninitialised; they
are unobservable while the entry is free and are modelled as zero). -/
def block_cache_init (ts : List Int) : List CacheBlock :=
  ts.map (fun t =>
    { dirty := false, free := true, dev := 0, sector := 0,
      buffer := List.replicate BLOCK_SECTOR_SIZE 0, lastTouched := t })

/-- block_cache_fflush (cache.c lines 136-155): write every non-free dirty
entry back and clear its dirty flag; the list order is untouched. -/
def block_cache_fflush (blocks : List CacheBlock) :
    List DevEvent × List CacheBlock :=
  (blocks.filterMap (fun b =>
      if !b.free && b.dirty then some (DevEvent.devWrite b.dev b.sector b.buffer) else none),
   blocks.map (fun b => if !b.free && b.dirty then { b with dirty := false } else b))

/-- The cache list is in nondecreasing order of last_touched. -/
def sortedCache (blocks : List CacheBlock) : Prop :=
  List.Sorted (fun a b : CacheBlock => a.lastTouched ≤ b.lastTouched) blocks

/-! ## Free map and on-disk state (free-map.c is not under src/) -/

/-- A pointer-block view of one sector: index (0..127) to the stored
32-bit sector number; a zero-filled data sector is the constant 0. -/
abbrev Block := Nat → Nat

/-- The all-zero sector (static char zeros[BLOCK_SECTOR_SIZE]). -/
def zeroBlock : Block := fun _ => 0

/-- Pointwise update of a pointer block (buffer[i] = v). -/
def updateF (f : Block) (i v : Nat) : Block :=
  fun j => if j = i then v else f j

/-- File-system state outside the inode being resized: the disk contents
(as seen through the transparent cache) and the free map. -/
structure FsState where
  disk : Nat → Block
  fm : List Bool

/-- disk[s] := blk (a block_cache_write of a whole sector). -/
def updateD (disk : Nat → Block) (s : Nat) (blk : Block) : Nat → Block :=
  fun t => if t = s then blk else disk t

/-- Modelled from the spec: free-map.c is not under src/; the spec says the
free map is a bitmap of free sectors with allocate/release.  true =
allocated.  free_map_allocate(1, &sector) finds the first free bit,
marks it allocated and yields its index; none when the map is full. -/
def free_map_allocate (fm : List Bool) : Option (Nat × List Bool) :=
  match fm.findIdx? (fun b => !b) with
  | some i => some (i, fm.set i true)
  | none => none

/-- Modelled from the spec: free_map_release(sector, 1) clears the bit. -/
def free_map_release (s : Nat) (fm : List Bool) : List Bool :=
  fm.set s false

/-- Number of free sectors in the free map. -/
def freeCount (fm : List Bool) : Nat :=
  fm.countP (fun b => !b)

/-! ## On-disk inode and inode_resize (src/filesys/inode.c) -/

/-- struct inode_disk (inode.c lines 17-28).  `itype` is the inode_type
field; the unused padding is omitted. -/
structure InodeDisk where
  length : Nat
  magic : Nat
  direct : List Nat
  indirect : Nat
  doubly : Nat
  itype : Nat

/-- Addressable capacity in bytes: (12 + 128 + 128*128) * 512. -/
def MAX_BYTES : Nat := (12 + 128 + 128 * 128) * BLOCK_SECTOR_SIZE

/-- The direct-pointer segment of inode_resize (inode.c lines 112-131), as
a loop over the index list (the C loop runs it on [0, ..., 11]).  On an
allocation failure the loop stops and returns the state at that point
(the C code rolls back and returns false there). -/
def resize_direct (L : Nat) :
    List Nat → InodeDisk → FsState →
    Except (InodeDisk × FsState) (InodeDisk × FsState)
  | [], d, st => .ok (d, st)
  | i :: is, d, st =>
    let p :=
      if L ≤ BLOCK_SECTOR_SIZE * i ∧ d.direct.getD i 0 ≠ 0 then
        ({ d with direct := d.direct.set i 0 },
         { st with fm := free_map_release (d.direct.getD i 0) st.fm })
      else (d, st)
    if BLOCK_SECTOR_SIZE * i < L ∧ p.1.direct.getD i 0 = 0 then
      match free_map_allocate p.2.fm with
      | none => .error p
      | some (s, fm) =>
        resize_direct L is { p.1 with direct := p.1.direct.set i s }
          { p.2 with fm := fm, disk := updateD p.2.disk s zeroBlock }
    else resize_direct L is p.1 p.2

/-- The loop over the 128 entries of the indirect block (inode.c lines
155-174); `buf` is the local buffer holding the block's pointers. -/
def resize_indirect (L : Nat) :
    List Nat → Block → FsState →
    Except (Block × FsState) (Block × FsState)
  | [], buf, st => .ok (buf, st)
  | i :: is, buf, st =>
    let p :=
      if L ≤ (12 + i) * BLOCK_SECTOR_SIZE ∧ buf i ≠ 0 then
        (updateF buf i 0, { st with fm := free_map_release (buf i) st.fm })
      else (buf, st)
    if (12 + i) * BLOCK_SECTOR_SIZE < L ∧ p.1 i = 0 then
      match free_map_allocate p.2.fm with
      | none => .error p
      | some (s, fm) =>
        resize_indirect L is (updateF p.1 i s)
          { p.2 with fm := fm, disk := updateD p.2.disk s zeroBlock }
    else resize_indirect L is p.1 p.2

/-- The inner loop over one indirect block hanging off the doubly-indirect
block (inode.c lines 233-255); `i` is the outer index. -/
def resize_inside (L i : Nat) :
    List Nat → Block → FsState →
    Except (Block × FsState) (Block × FsState)
  | [], ins, st => .ok (ins, st)
  | j :: js, ins, st =>
    let p :=
      if L ≤ (12 + 128 + 128 * i + j) * BLOCK_SECTOR_SIZE ∧ ins j ≠ 0 then
        (updateF ins j 0, { st with fm := free_map_release (ins j) st.fm })
      else (ins, st)
    if (12 + 128 + 128 * i + j) * BLOCK_SECTOR_SIZE < L ∧ p.1 j = 0 then
      match free_map_allocate p.2.fm with
      | none => .error p
      | some (s, fm) =>
        resize_inside L i js (updateF p.1 j s)
          { p.2 with fm := fm, disk := updateD p.2.disk s zeroBlock }
    else resize_inside L i js p.1 p.2

/-- Exit status of the loop over the doubly-indirect block's entries:
allocation failure, early break, or normal completion. -/
inductive DblExit where
  | fail (buf : Block) (st : FsState)
  | brk (buf : Block) (st : FsState)
  | done (buf : Block) (st : FsState)

/-- The loop over the 128 entries of the doubly-indirect block (inode.c
lines 208-267), including the break at the first unallocated entry past
the target length (lines 211-213).  Note that a freshly allocated inner
indirect block is recorded only in the local `buf`, which is written to
disk only after the whole loop finishes (line 274). -/
def resize_doubly (L : Nat) : List Nat → Block → FsState → DblExit
  | [], buf, st => .done buf st
  | i :: is, buf, st =>
    if buf i = 0 ∧ L ≤ (12 + 128 + 128 * i) * BLOCK_SECTOR_SIZE then .brk buf st
    else
      match (if buf i = 0 then
               match free_map_allocate st.fm with
               | none => none
               | some (s, fm) =>
                 some (updateF buf i s, zeroBlock,
                   { st with fm := fm, disk := updateD st.disk s zeroBlock })
             else some (buf, st.disk (buf i), st)) with
      | none => .fail buf st
      | some (buf, ins, st) =>
        match resize_inside L i (List.range 128) ins st with
        | .error (_, st) => .fail buf st
        | .ok (ins, st) =>
          if buf i ≠ 0 ∧ L ≤ (12 + 128 + 128 * i) * BLOCK_SECTOR_SIZE then
            resize_doubly L is (updateF buf i 0)
              { st with fm := free_map_release (buf i) st.fm }
          else
            resize_doubly L is buf { st with disk := updateD st.disk (buf i) ins }

/-- inode_resize (inode.c lines 108-279) with explicit recursion fuel for
the rollback call `inode_resize(disk_inode, disk_inode->length)`;
at fuel 0 the model returns false with the current state (the C code
would recurse again, which for a failing rollback never terminates). -/
def inode_resize_go : Nat → InodeDisk → Nat → FsState → Bool × InodeDisk × FsState
  | 0, d, _, st => (false, d, st)
  | fuel + 1, d, L, st =>
    match resize_direct L (List.range 12) d st with
    | .error (d, st) =>
      let r := inode_resize_go fuel d d.length st
      (false, r.2.1, r.2.2)
    | .ok (d, st) =>
      if d.indirect = 0 ∧ L ≤ 12 * BLOCK_SECTOR_SIZE then
        (true, { d with length := L }, st)
      else
        match (if d.indirect = 0 then
                 match free_map_allocate st.fm with
                 | none => none
                 | some (s, fm) =>
                   some ({ d with indirect := s }, zeroBlock,
                     { st with fm := fm, disk := updateD st.disk s zeroBlock })
               else some (d, st.disk d.indirect, st)) with
        | none =>
          let r := inode_resize_go fuel d d.length st
          (false, r.2.1, r.2.2)
        | some (d, buf, st) =>
          match resize_indirect L (List.range 128) buf st with
          | .error (_, st) =>
            let r := inode_resize_go fuel d d.length st
            (false, r.2.1, r.2.2)
          | .ok (buf, st) =>
            let q :=
              if d.indirect ≠ 0 ∧ L ≤ 12 * 512 then
                ({ d with indirect := 0 },
                 { st with fm := free_map_release d.indirect st.fm })
              else (d, { st with disk := updateD st.disk d.indirect buf })
            let d := q.1
            let st := q.2
            if d.doubly = 0 ∧ L ≤ (12 + 128) * BLOCK_SECTOR_SIZE then
              (true, { d with length := L }, st)
            else
              match (if d.doubly = 0 then
                       match free_map_allocate st.fm with
                       | none => none
                       | some (s, fm) =>
                         some ({ d with doubly := s }, zeroBlock,
                           { st with fm := fm, disk := updateD st.disk s zeroBlock })
                     else some (d, st.disk d.doubly, st)) with
              | none =>
                let r := inode_resize_go fuel d d.length st
                (false, r.2.1, r.2.2)
              | some (d, buf2, st) =>
                match resize_doubly L (List.range 128) buf2 st with
                | .fail _ st =>
                  let r := inode_resize_go fuel d d.length st
                  (false, r.2.1, r.2.2)
                | .brk buf2 st | .done buf2 st =>
                  let q :=
                    if d.doubly ≠ 0 ∧ L ≤ (12 + 128) * BLOCK_SECTOR_SIZE then
                      ({ d with doubly := 0 },
                       { st with fm := free_map_release d.doubly st.fm })
                    else (d, { st with disk := updateD st.disk d.doubly buf2 })
                  (true, { q.1 with length := L }, q.2)

/-- inode_resize, with fuel for one rollback call, which is exactly the
recursion the C code performs when an allocation fails and the rollback
itself succeeds. -/
def inode_resize (d : InodeDisk) (L : Nat) (st : FsState) : Bool × InodeDisk × FsState :=
  inode_resize_go 2 d L st

/-- byte_to_sector (inode.c lines 57-89).  The disk inode is read through
the cache from the inode's sector; here it is passed directly as `d`.
Returns none where the C code returns (block_sector_t) -1, and also on
the fall-through path 12*512 + ... ≤ pos < length where the C function
ends without executing a return statement. -/
def byte_to_sector (st : FsState) (d : InodeDisk) (pos : Nat) : Option Nat :=
  if pos < d.length then
    if pos < 12 * BLOCK_SECTOR_SIZE then
      some (d.direct.getD (pos / BLOCK_SECTOR_SIZE) 0)
    else if pos < (12 + 128) * BLOCK_SECTOR_SIZE then
      some (st.disk d.indirect ((pos - 12 * BLOCK_SECTOR_SIZE) / BLOCK_SECTOR_SIZE))
    else if pos < (12 + 128 + 128 * 128) * BLOCK_SECTOR_SIZE then
      some (st.disk
        (st.disk d.doubly ((pos - (12 + 128) * BLOCK_SECTOR_SIZE) / BLOCK_SECTOR_SIZE / 128))
        ((pos - (12 + 128) * BLOCK_SECTOR_SIZE) / BLOCK_SECTOR_SIZE % 128))
    else none
  else none

/-! ## In-memory inode: remove and close (inode.c lines 383-428) -/

/-- The fields of struct inode relevant to open/close/remove (the locks and
the condition variable are synchronisation only). -/
structure MemInode where
  sector : Nat
  open_cnt : Int
  removed : Bool
  deny_write_cnt : Int
  deriving Repr, DecidableEq

/-- inode_remove (inode.c lines 422-428): set the removed flag; nothing
else is touched and no deallocation happens. -/
def inode_remove (i : MemInode) : MemInode :=
  { i with removed := true }

/-- inode_close (inode.c lines 383-418).  Decrements open_cnt; if it
reached zero the inode leaves the open list (result none) and, when
removed, the disk inode is read back, resized to 0 and the inode's own
sector is released.  Otherwise the inode survives and the file-system
state is untouched. -/
def inode_close (i : MemInode) (d : InodeDisk) (st : FsState) :
    Option MemInode × FsState :=
  let i := { i with open_cnt := i.open_cnt - 1 }
  if i.open_cnt = 0 then
    if i.removed then
      let r := inode_resize d 0 st
      (none, { r.2.2 with fm := free_map_release i.sector r.2.2.fm })
    else (none, st)
  else (some i, st)

/-! ## Path tokenizer (src/filesys/path.c lines 12-28) -/

/-- NAME_MAX from the directory layer (spec section 3). -/
def NAME_MAX : Nat := 14

/-- The copy loop of get_next_part (path.c lines 19-23): walk the source
until a '/' or the end of the string, accumulating at most NAME_MAX
characters (dst is accumulated in reverse); none models the `return -1`
taken when a further character arrives with the part buffer full. -/
def gnp_loop : List Char → List Char → Option (List Char × List Char)
  | [], dst => some (dst.reverse, [])
  | c :: rest, dst =>
    if c = '/' then some (dst.reverse, c :: rest)
    else if dst.length < NAME_MAX then gnp_loop rest (c :: dst)
    else none

/-- get_next_part (path.c lines 12-28).  Returns the status (1, 0 or -1),
the extracted component, and the new value of *srcp (which the C code
updates only on status 1). -/
def get_next_part (src : List Char) : Int × List Char × List Char :=
  match src.dropWhile (fun c => c = '/') with
  | [] => (0, [], src)
  | c :: rest =>
    match gnp_loop (c :: rest) [] with
    | none => (-1, [], src)
    | some r => (1, r.1, r.2)

/-! ## Directory remove (src/filesys/fd.c lines 42-79, path.c lines 200-214) -/

/-- A directory entry as laid out by the directory layer (dir.c is not
under src/): sector, name, in-use flag. -/
structure DirEntry where
  inode_sector : Nat
  name : String
  in_use : Bool
  deriving Repr, DecidableEq

/-- path_is_empty_dir (path.c lines 200-214): reopen the directory (fresh
cursor) and iterate dir_readdir, skipping "." and ".."; any other name
makes the directory non-empty.  dir_readdir is modelled from the spec
(dir.c is not under src/): it yields the next in-use entry's name and
advances the cursor, which is inlined here as skipping entries with
in_use = false. -/
def path_is_empty_dir : List DirEntry → Bool
  | [] => true
  | e :: rest =>
    if !e.in_use then path_is_empty_dir rest
    else if e.name = "." || e.name = ".." then path_is_empty_dir rest
    else false

/-- Modelled from the spec: ROOT_DIR_SECTOR (filesys.h is not under src/);
sector 1 holds the root directory inode. -/
def ROOT_DIR_SECTOR : Nat := 1

/-- Modelled from the spec: filesys_remove (filesys.c is not under src/)
removes an existing directory entry; it succeeds here because
sys_remove only reaches it after the path already resolved to this
inode, so the entry exists. -/
def filesys_remove_existing : Bool := true

/-- The INODE_DIRECTORY case of sys_remove (fd.c lines 62-70): result is
path_is_empty_dir, forced to false when the inode is the root directory
or the calling thread's cwd (cwd = none models thread->cwd == NULL),
and finally filesys_remove runs only if result is still true. -/
def sys_remove_dir (entries : List DirEntry) (inumber : Nat) (cwd : Option Nat) : Bool :=
  let result := path_is_empty_dir entries
  let result := if inumber = ROOT_DIR_SECTOR then false else result
  let result :=
    match cwd with
    | some c => if c = inumber then false else result
    | none => result
  if result then filesys_remove_existing else result

/-! ## The copy loops of inode_read_at / inode_write_at (inode.c 438-466,
500-529) -/

/-- The chunk_size computation of one loop iteration of inode_read_at /
inode_write_at (inode.c lines 444-449 and 506-511): min of the bytes
requested, the bytes left in the inode (which may be negative, so Int
as in C) and the bytes left in the sector. -/
def rw_chunk (length size offset : Nat) : Int :=
  let sector_ofs := offset % BLOCK_SECTOR_SIZE
  let inode_left : Int := (length : Int) - (offset : Int)
  let sector_left : Int := (BLOCK_SECTOR_SIZE : Int) - (sector_ofs : Int)
  let min_left : Int := if inode_left < sector_left then inode_left else sector_left
  if (size : Int) < min_left then (size : Int) else min_left

/-- One pass of the shared copy-loop structure of inode_read_at and
inode_write_at: the list of (sector_ofs, chunk_size) arguments passed
to the block cache (a full-sector iteration calls block_cache_read /
block_cache_write, i.e. offset 0 and length BLOCK_SECTOR_SIZE). -/
def inode_rw_calls (length size offset : Nat) : List (Nat × Nat) :=
  if size = 0 then []
  else if rw_chunk length size offset ≤ 0 then []
  else
    (offset % BLOCK_SECTOR_SIZE, (rw_chunk length size offset).toNat) ::
      inode_rw_calls length (size - (rw_chunk length size offset).toNat)
        (offset + (rw_chunk length size offset).toNat)
  termination_by size
  decreasing_by omega

/-- The cache calls issued by the loop of inode_read_at (inode.c 438-466). -/
def inode_read_at_calls (length size offset : Nat) : List (Nat × Nat) :=
  inode_rw_calls length size offset

/-- The cache calls issued by the loop of inode_write_at (inode.c 500-529). -/
def inode_write_at_calls (length size offset : Nat) : List (Nat × Nat) :=
  inode_rw_calls length size offset

/-! ## Sectors reachable from an inode's extent tree -/

/-- The non-null direct pointers, in index order. -/
def directSectors (d : InodeDisk) : List Nat :=
  ((List.range 12).map (fun i => d.direct.getD i 0)).filter (fun s => s ≠ 0)

/-- The non-null pointers stored in one pointer block, in index order. -/
def blockSectors (blk : Block) : List Nat :=
  ((List.range 128).map blk).filter (fun s => s ≠ 0)

/-- The entries of the doubly-indirect block up to the first null pointer
(resize's loop over it breaks there, inode.c lines 211-213). -/
def doublyReach (blk : Block) : List Nat :=
  ((List.range 128).map blk).takeWhile (fun s => s ≠ 0)

/-- Every sector the extent tree of `d` occupies, in the order inode_resize
releases them when shrinking to length 0: direct leaves, then the
indirect block's leaves and the indirect block, then for each reachable
doubly-indirect entry its leaves and the entry, then the doubly-indirect
block itself. -/
def treeSectors (d : InodeDisk) (st : FsState) : List Nat :=
  directSectors d
  ++ (if d.indirect = 0 then [] else blockSectors (st.disk d.indirect) ++ [d.indirect])
  ++ (if d.doubly = 0 then [] else
        (doublyReach (st.disk d.doubly)).flatMap
          (fun s => blockSectors (st.disk s) ++ [s]) ++ [d.doubly])

/-! ## Concrete inputs used by witnesses and counterexamples -/

/-- A freshly created, empty disk inode (inode_create with length 0). -/
def dEmpty : InodeDisk :=
  { length := 0, magic := 0x494e4f44, direct := List.replicate 12 0,
    indirect := 0, doubly := 0, itype := 0 }

/-- A file-system state whose free map has sector 0 allocated (the free-map
inode) and 14 free sectors. -/
def st14 : FsState := { disk := fun _ => zeroBlock, fm := true :: List.replicate 14 false }

/-- A pointer block all of whose entries are the (arbitrary) sector 1. -/
def oneBlock : Block := fun _ => 1

/-- A disk inode whose extent tree is completely full: length MAX_BYTES,
every direct, indirect and doubly-indirect slot allocated. -/
def dFull : InodeDisk :=
  { length := MAX_BYTES, magic := 0x494e4f44, direct := List.replicate 12 1,
    indirect := 1, doubly := 1, itype := 0 }

/-- Disk contents backing dFull: every sector other than 0 reads as a full
pointer block. -/
def stFull : FsState :=
  { disk := fun s => if s = 0 then zeroBlock else oneBlock, fm := [] }

/-- A device whose sectors are all zero bytes. -/
def disk0 : Nat → Nat → SectorData := fun _ _ => List.replicate BLOCK_SECTOR_SIZE 0

/-- The cache right after block_cache_init, with ticks 0..63. -/
def cacheInit64 : List CacheBlock := block_cache_init ((List.range 64).map Int.ofNat)

/-- A full sector of 7-bytes, used as write data. -/
def fullSrc : SectorData := List.replicate BLOCK_SECTOR_SIZE 7

/-- A concrete 64-entry cache used to exercise the eviction path: entry 0
is non-free and dirty with the oldest last_touched; 63 further non-free
clean entries hold other sectors. -/
def evictionCache : List CacheBlock :=
  { dirty := true, free := false, dev := 0, sector := 9,
    buffer := List.replicate BLOCK_SECTOR_SIZE 3, lastTouched := 10 }
  :: (List.range 63).map (fun k =>
       { dirty := false, free := false, dev := 0, sector := 100 + k,
         buffer := List.replicate BLOCK_SECTOR_SIZE 0, lastTouched := 20 + (k : Int) })

/-- A one-entry cache holding (device 0, sector 5), used to exercise the
hit path. -/
def hitCache : List CacheBlock :=
  [{ dirty := false, free := false, dev := 0, sector := 5,
     buffer := List.replicate BLOCK_SECTOR_SIZE 1, lastTouched := 0 }]

/-- Releasing a list of sectors to the free map, in order. -/
def releaseAll (l : List Nat) (fm : List Bool) : List Bool :=
  l.foldl (fun fm s => free_map_release s fm) fm

/-! # Helper lemmas about the cache list -/

theorem mem_listSortInsert {x b : CacheBlock} {l : List CacheBlock}
    (h : x ∈ listSortInsert b l) : x = b ∨ x ∈ l := by
  induction l with
  | nil => simpa [listSortInsert] using h
  | cons c rest ih =>
    by_cases hb : b.lastTouched < c.lastTouched
    · simp only [listSortInsert, if_pos hb, List.mem_cons] at h
      rcases h with rfl | rfl | h
      · exact Or.inl rfl
      · exact Or.inr (List.mem_cons_self _ _)
      · exact Or.inr (List.mem_cons_of_mem _ h)
    · simp only [listSortInsert, if_neg hb, List.mem_cons] at h
      rcases h with rfl | h
      · exact Or.inr (List.mem_cons_self _ _)
      · rcases ih h with rfl | h
        · exact Or.inl rfl
        · exact Or.inr (List.mem_cons_of_mem _ h)

theorem sorted_listSortInsert (b : CacheBlock) {l : List CacheBlock}
    (h : sortedCache l) : sortedCache (listSortInsert b l) := by
  induction l with
  | nil => simp [listSortInsert, sortedCache]
  | cons c rest ih =>
    rw [sortedCache, List.sorted_cons] at h
    by_cases hb : b.lastTouched < c.lastTouched
    · rw [listSortInsert, if_pos hb, sortedCache, List.sorted_cons]
      refine ⟨?_, ?_⟩
      · intro x hx
        rcases List.mem_cons.mp hx with rfl | hx
        · exact le_of_lt hb
        · exact le_trans (le_of_lt hb) (h.1 x hx)
      · rw [List.sorted_cons]
        exact ⟨h.1, h.2⟩
    · rw [listSortInsert, if_neg hb, sortedCache, List.sorted_cons]
      refine ⟨?_, ih h.2⟩
      intro x hx
      rcases mem_listSortInsert hx with rfl | hx
      · exact le_of_not_lt hb
      · exact h.1 x hx

theorem sorted_list_sort (l : List CacheBlock) : sortedCache (list_sort l) := by
  induction l with
  | nil => simp [list_sort, sortedCache]
  | cons b rest ih => exact sorted_listSortInsert b ih

theorem length_listSortInsert (b : CacheBlock) (l : List CacheBlock) :
    (listSortInsert b l).length = l.length + 1 := by
  induction l with
  | nil => rfl
  | cons c rest ih =>
    by_cases hb : b.lastTouched < c.lastTouched
    · simp [listSortInsert, if_pos hb]
    · simp [listSortInsert, if_neg hb, ih]

theorem length_list_sort (l : List CacheBlock) : (list_sort l).length = l.length := by
  induction l with
  | nil => rfl
  | cons b rest ih => simp [list_sort, length_listSortInsert, ih]

theorem listMinIdxAux_lt {n : Nat} :
    ∀ (l : List CacheBlock) (i best : Nat) (bestVal : Int),
      best < n → i + l.length ≤ n → listMinIdxAux l i best bestVal < n := by
  intro l
  induction l with
  | nil => intro i best bestVal hb _; simpa [listMinIdxAux] using hb
  | cons b rest ih =>
    intro i best bestVal hb hl
    simp only [List.length_cons] at hl
    by_cases hlt : b.lastTouched < bestVal
    · rw [listMinIdxAux, if_pos hlt]
      exact ih (i + 1) i b.lastTouched (by omega) (by omega)
    · rw [listMinIdxAux, if_neg hlt]
      exact ih (i + 1) best bestVal hb (by omega)

theorem listMinIdx_lt {l : List CacheBlock} (h : l ≠ []) : listMinIdx l < l.length := by
  cases l with
  | nil => exact absurd rfl h
  | cons b rest =>
    rw [listMinIdx]
    exact listMinIdxAux_lt rest 1 0 b.lastTouched (by simp) (by simp; omega)

theorem listMinIdxAux_min (full : List CacheBlock) :
    ∀ (l : List CacheBlock) (i best : Nat) (bestVal : Int),
      (full.getD best default).lastTouched = bestVal →
      (∀ k, k < l.length → l.getD k default = full.getD (i + k) default) →
      (full.getD (listMinIdxAux l i best bestVal) default).lastTouched ≤ bestVal
      ∧ ∀ x ∈ l,
          (full.getD (listMinIdxAux l i best bestVal) default).lastTouched ≤ x.lastTouched := by
  intro l
  induction l with
  | nil =>
    intro i best bestVal hbest _
    simp only [listMinIdxAux]
    exact ⟨le_of_eq hbest, fun x hx => absurd hx (List.not_mem_nil x)⟩
  | cons b rest ih =>
    intro i best bestVal hbest hsuf
    have hb0 : full.getD i default = b := by
      have := hsuf 0 (by simp)
      simpa using this.symm
    have hsuf' : ∀ k, k < rest.length → rest.getD k default = full.getD (i + 1 + k) default := by
      intro k hk
      have := hsuf (k + 1) (by simpa using Nat.succ_lt_succ hk)
      simpa [List.getD_cons_succ, Nat.add_assoc, Nat.add_comm 1 k] using this
    by_cases hlt : b.lastTouched < bestVal
    · rw [listMinIdxAux, if_pos hlt]
      obtain ⟨hle, hall⟩ := ih (i + 1) i b.lastTouched (by rw [hb0]) hsuf'
      refine ⟨le_trans hle (le_of_lt hlt), ?_⟩
      intro x hx
      rcases List.mem_cons.mp hx with rfl | hx
      · exact hle
      · exact hall x hx
    · rw [listMinIdxAux, if_neg hlt]
      obtain ⟨hle, hall⟩ := ih (i + 1) best bestVal hbest hsuf'
      refine ⟨hle, ?_⟩
      intro x hx
      rcases List.mem_cons.mp hx with rfl | hx
      · exact le_trans hle (le_of_not_lt hlt)
      · exact hall x hx

theorem listMinIdx_min {l : List CacheBlock} :
    ∀ x ∈ l, (l.getD (listMinIdx l) default).lastTouched ≤ x.lastTouched := by
  cases l with
  | nil => intro x hx; cases hx
  | cons b rest =>
    have h := listMinIdxAux_min (b :: rest) rest 1 0 b.lastTouched (by simp)
      (fun k hk => by simp [Nat.add_comm 1 k, List.getD_cons_succ, List.getElem?_cons_succ])
    intro x hx
    rcases List.mem_cons.mp hx with rfl | hx
    · exact h.1
    · exact h.2 x hx

theorem listMinIdxAux_of_no_lt :
    ∀ (l : List CacheBlock) (i best : Nat) (bestVal : Int),
      (∀ x ∈ l, ¬ x.lastTouched < bestVal) → listMinIdxAux l i best bestVal = best := by
  intro l
  induction l with
  | nil => intro i best bestVal _; rfl
  | cons b rest ih =>
    intro i best bestVal h
    rw [listMinIdxAux, if_neg (h b (List.mem_cons_self _ _))]
    exact ih (i + 1) best bestVal (fun x hx => h x (List.mem_cons_of_mem _ hx))

theorem listMinIdx_of_sorted {l : List CacheBlock}
    (hs : sortedCache l) (hne : l ≠ []) : listMinIdx l = 0 := by
  cases l with
  | nil => exact absurd rfl hne
  | cons b rest =>
    rw [sortedCache, List.sorted_cons] at hs
    rw [listMinIdx]
    exact listMinIdxAux_of_no_lt rest 1 0 b.lastTouched
      (fun x hx => not_lt_of_le (hs.1 x hx))

theorem getD_set_self {α : Type} [Inhabited α] :
    ∀ (l : List α) (i : Nat) (a : α), i < l.length → (l.set i a).getD i default = a := by
  intro l
  induction l with
  | nil => intro i a h; cases h
  | cons b rest ih =>
    intro i a h
    cases i with
    | zero => rfl
    | succ j =>
      simp only [List.set_cons_succ, List.getD_cons_succ]
      exact ih j a (by simpa using h)

/-- The miss path of block_cache_read_offset, spelled out: the victim is
the list_min entry, written back first if non-free and dirty, then the
entry is relabelled, refilled from the device and the list re-sorted. -/
theorem block_cache_read_offset_miss (disk : Nat → Nat → SectorData) (now : Int)
    (dev sector ofs len : Nat) (blocks : List CacheBlock)
    (hne : blocks ≠ []) (hmiss : cacheFind blocks dev sector = none) :
    block_cache_read_offset disk now dev sector ofs len blocks
      = (readBytes (disk dev sector) ofs len,
         (if !(blocks.getD (listMinIdx blocks) default).free
             && (blocks.getD (listMinIdx blocks) default).dirty
          then [DevEvent.devWrite (blocks.getD (listMinIdx blocks) default).dev
                  (blocks.getD (listMinIdx blocks) default).sector
                  (blocks.getD (listMinIdx blocks) default).buffer]
          else []) ++ [DevEvent.devRead dev sector],
         list_sort (blocks.set (listMinIdx blocks)
           { dirty := false, free := false, dev := dev, sector := sector,
             buffer := disk dev sector, lastTouched := now })) := by
  have hidx : listMinIdx blocks < blocks.length := listMinIdx_lt hne
  simp only [block_cache_read_offset, hmiss, block_cache_nru_evict]
  rw [getD_set_self _ _ _ (by simpa using hidx), List.set_set]

/-- The miss path of block_cache_write_offset, spelled out: the victim is
written back if needed, then the sector is read from the device even
when the write covers it entirely, the chunk is applied, the whole
sector is written straight back to the device, and the entry ends up
clean (dirty = false). -/
theorem block_cache_write_offset_miss (disk : Nat → Nat → SectorData) (now : Int)
    (dev sector ofs : Nat) (src : SectorData) (blocks : List CacheBlock)
    (hne : blocks ≠ []) (hmiss : cacheFind blocks dev sector = none) :
    block_cache_write_offset disk now dev sector ofs src blocks
      = ((if !(blocks.getD (listMinIdx blocks) default).free
             && (blocks.getD (listMinIdx blocks) default).dirty
          then [DevEvent.devWrite (blocks.getD (listMinIdx blocks) default).dev
                  (blocks.getD (listMinIdx blocks) default).sector
                  (blocks.getD (listMinIdx blocks) default).buffer]
          else []) ++ [DevEvent.devRead dev sector,
                       DevEvent.devWrite dev sector (memWrite (disk dev sector) ofs src)],
         list_sort (blocks.set (listMinIdx blocks)
           { dirty := false, free := false, dev := dev, sector := sector,
             buffer := memWrite (disk dev sector) ofs src, lastTouched := now })) := by
  have hidx : listMinIdx blocks < blocks.length := listMinIdx_lt hne
  simp only [block_cache_write_offset, hmiss, block_cache_nru_evict]
  rw [getD_set_self _ _ _ (by simpa using hidx), List.set_set]

/-- The hit path of block_cache_write_offset: in-place update of the
cached buffer, dirty mark, no device I/O. -/
theorem block_cache_write_offset_hit (disk : Nat → Nat → SectorData) (now : Int)
    (dev sector ofs : Nat) (src : SectorData) (blocks : List CacheBlock) (i : Nat)
    (hhit : cacheFind blocks dev sector = some i) :
    block_cache_write_offset disk now dev sector ofs src blocks
      = ([], list_sort (blocks.set i
          { blocks.getD i default with
            buffer := memWrite (blocks.getD i default).buffer ofs src,
            dirty := true, lastTouched := now })) := by
  simp only [block_cache_write_offset, hhit]

theorem memWrite_getD_lt (buf src : SectorData) (ofs j : Nat)
    (hj : j < ofs) (hofs : ofs ≤ buf.length) :
    (memWrite buf ofs src).getD j 0 = buf.getD j 0 := by
  have hjlen : j < buf.length := lt_of_lt_of_le hj hofs
  have htake : j < (buf.take ofs).length := by
    simp only [List.length_take]
    omega
  rw [memWrite, List.getD_append _ _ _ _ (by simp [List.length_append]; omega),
      List.getD_append _ _ _ _ htake]
  rw [List.getD_eq_getElem _ _ htake, List.getD_eq_getElem _ _ hjlen]
  simp [List.getElem_take]

theorem memWrite_getD_ge (buf src : SectorData) (ofs j : Nat)
    (hj : ofs + src.length ≤ j) (hlen : ofs + src.length ≤ buf.length) :
    (memWrite buf ofs src).getD j 0 = buf.getD j 0 := by
  have hofs : ofs ≤ buf.length := by omega
  have hlento : (buf.take ofs ++ src).length = ofs + src.length := by
    simp [List.length_take]
    omega
  by_cases hjb : j < buf.length
  · rw [memWrite, List.getD_append_right _ _ _ _ (by omega : (buf.take ofs ++ src).length ≤ j)]
    rw [hlento]
    have hdrop : j - (ofs + src.length) < (buf.drop (ofs + src.length)).length := by
      simp [List.length_drop]
      omega
    rw [List.getD_eq_getElem _ _ hdrop, List.getD_eq_getElem _ _ hjb]
    simp only [List.getElem_drop]
    congr 1
    omega
  · have h1 : (memWrite buf ofs src).length = buf.length := by
      simp [memWrite, List.length_take, List.length_drop]
      omega
    rw [List.getD_eq_default _ _ (by omega), List.getD_eq_default _ _ (by omega)]

theorem sorted_block_cache_init {ts : List Int}
    (h : List.Sorted (fun a b : Int => a ≤ b) ts) :
    sortedCache (block_cache_init ts) := by
  rw [sortedCache, block_cache_init, List.Sorted, List.pairwise_map]
  exact h

theorem sorted_block_cache_read_offset (disk : Nat → Nat → SectorData) (now : Int)
    (dev sector ofs len : Nat) (blocks : List CacheBlock) :
    sortedCache (block_cache_read_offset disk now dev sector ofs len blocks).2.2
    ∧ (block_cache_read_offset disk now dev sector ofs len blocks).2.2.length
        = blocks.length := by
  cases h : cacheFind blocks dev sector with
  | some i =>
    simp only [block_cache_read_offset, h]
    exact ⟨sorted_list_sort _, by simp [length_list_sort]⟩
  | none =>
    simp only [block_cache_read_offset, h, block_cache_nru_evict]
    exact ⟨sorted_list_sort _, by simp [length_list_sort]⟩

theorem sorted_block_cache_write_offset (disk : Nat → Nat → SectorData) (now : Int)
    (dev sector ofs : Nat) (src : SectorData) (blocks : List CacheBlock) :
    sortedCache (block_cache_write_offset disk now dev sector ofs src blocks).2
    ∧ (block_cache_write_offset disk now dev sector ofs src blocks).2.length
        = blocks.length := by
  cases h : cacheFind blocks dev sector with
  | some i =>
    simp only [block_cache_write_offset, h]
    exact ⟨sorted_list_sort _, by simp [length_list_sort]⟩
  | none =>
    simp only [block_cache_write_offset, h, block_cache_nru_evict]
    exact ⟨sorted_list_sort _, by simp [length_list_sort]⟩

theorem sorted_block_cache_fflush {blocks : List CacheBlock} (h : sortedCache blocks) :
    sortedCache (block_cache_fflush blocks).2
    ∧ (block_cache_fflush blocks).2.length = blocks.length := by
  refine ⟨?_, by simp [block_cache_fflush]⟩
  rw [sortedCache, block_cache_fflush, List.Sorted, List.pairwise_map]
  refine List.Pairwise.imp ?_ h
  intro a b hab
  by_cases ha : !a.free && a.dirty <;> by_cases hb : !b.free && b.dirty <;>
    simp [ha, hb, hab]

/-! # Claim theorems -/

/-- C9: after block_cache_init (whose successive timer_ticks readings are
nondecreasing) and after every completed block_cache_read,
block_cache_read_offset, block_cache_write, block_cache_write_offset and
block_cache_fflush, the cache's entry list is sorted in nondecreasing
last_touched order and keeps its 64 entries, and on such a sorted list
the eviction victim picked by list_min is the front entry, i.e. the
minimum of this order. -/
theorem cache_list_sorted_invariant :
    (∀ ts : List Int, List.Sorted (fun a b : Int => a ≤ b) ts →
        sortedCache (block_cache_init ts))
    ∧ (∀ (disk : Nat → Nat → SectorData) (now : Int) (dev sector ofs len : Nat)
          (blocks : List CacheBlock),
        sortedCache (block_cache_read_offset disk now dev sector ofs len blocks).2.2
        ∧ (block_cache_read_offset disk now dev sector ofs len blocks).2.2.length
            = blocks.length)
    ∧ (∀ (disk : Nat → Nat → SectorData) (now : Int) (dev sector : Nat)
          (blocks : List CacheBlock),
        sortedCache (block_cache_read disk now dev sector blocks).2.2)
    ∧ (∀ (disk : Nat → Nat → SectorData) (now : Int) (dev sector ofs : Nat)
          (src : SectorData) (blocks : List CacheBlock),
        sortedCache (block_cache_write_offset disk now dev sector ofs src blocks).2
        ∧ (block_cache_write_offset disk now dev sector ofs src blocks).2.length
            = blocks.length)
    ∧ (∀ (disk : Nat → Nat → SectorData) (now : Int) (dev sector : Nat)
          (src : SectorData) (blocks : List CacheBlock),
        sortedCache (block_cache_write disk now dev sector src blocks).2)
    ∧ (∀ blocks : List CacheBlock, sortedCache blocks →
        sortedCache (block_cache_fflush blocks).2
        ∧ (block_cache_fflush blocks).2.length = blocks.length)
    ∧ (∀ blocks : List CacheBlock, sortedCache blocks → blocks ≠ [] →
        listMinIdx blocks = 0) := by
  refine ⟨?_, ?_, ?_, ?_, ?_, ?_, ?_⟩
  · intro ts h; exact sorted_block_cache_init h
  · intro disk now dev sector ofs len blocks
    exact sorted_block_cache_read_offset disk now dev sector ofs len blocks
  · intro disk now dev sector blocks
    exact (sorted_block_cache_read_offset disk now dev sector 0 BLOCK_SECTOR_SIZE blocks).1
  · intro disk now dev sector ofs src blocks
    exact sorted_block_cache_write_offset disk now dev sector ofs src blocks
  · intro disk now dev sector src blocks
    exact (sorted_block_cache_write_offset disk now dev sector 0 src blocks).1
  · intro blocks h; exact sorted_block_cache_fflush h
  · intro blocks hs hne; exact listMinIdx_of_sorted hs hne

/-- Witness for C9 at concrete inputs: a sorted tick list yields a sorted
initial cache, flushing the freshly initialised 64-entry cache keeps it
sorted, and its eviction victim is entry 0. -/
theorem cache_list_sorted_invariant_witness :
    sortedCache (block_cache_init [0, 3, 5])
    ∧ sortedCache (block_cache_fflush cacheInit64).2
    ∧ listMinIdx cacheInit64 = 0 := by
  refine ⟨cache_list_sorted_invariant.1 [0, 3, 5] (by decide), ?_, ?_⟩
  · exact (cache_list_sorted_invariant.2.2.2.2.2.1 cacheInit64
      (sorted_block_cache_init (by decide))).1
  · exact cache_list_sorted_invariant.2.2.2.2.2.2 cacheInit64
      (sorted_block_cache_init (by decide)) (by decide)

/-- C5: on a cache miss in a read or write, the victim chosen by
block_cache_nru_evict has the minimum last_touched among all 64 entries;
if it is non-free and dirty its buffer is written back to its original
(device, sector) before the read that refills the relabelled entry (and,
on the write path, before the write-through), and the entry is indeed
relabelled with the new (device, sector) and refilled. -/
theorem cache_eviction_victim
    (disk : Nat → Nat → SectorData) (now : Int) (dev sector ofs len : Nat)
    (src : SectorData) (blocks : List CacheBlock)
    (hlen : blocks.length = MAX_CACHE_SECTORS)
    (hmiss : cacheFind blocks dev sector = none) :
    (∀ b ∈ blocks,
        (blocks.getD (listMinIdx blocks) default).lastTouched ≤ b.lastTouched)
    ∧ ((blocks.getD (listMinIdx blocks) default).free = false →
       (blocks.getD (listMinIdx blocks) default).dirty = true →
       (block_cache_read_offset disk now dev sector ofs len blocks).2.1
         = [DevEvent.devWrite (blocks.getD (listMinIdx blocks) default).dev
              (blocks.getD (listMinIdx blocks) default).sector
              (blocks.getD (listMinIdx blocks) default).buffer,
            DevEvent.devRead dev sector]
       ∧ (block_cache_write_offset disk now dev sector ofs src blocks).1
         = [DevEvent.devWrite (blocks.getD (listMinIdx blocks) default).dev
              (blocks.getD (listMinIdx blocks) default).sector
              (blocks.getD (listMinIdx blocks) default).buffer,
            DevEvent.devRead dev sector,
            DevEvent.devWrite dev sector (memWrite (disk dev sector) ofs src)])
    ∧ (block_cache_read_offset disk now dev sector ofs len blocks).2.2
        = list_sort (blocks.set (listMinIdx blocks)
            { dirty := false, free := false, dev := dev, sector := sector,
              buffer := disk dev sector, lastTouched := now }) := by
  have hne : blocks ≠ [] := by
    intro h
    rw [h] at hlen
    simp [MAX_CACHE_SECTORS] at hlen
  refine ⟨fun b hb => listMinIdx_min b hb, ?_, ?_⟩
  · intro hfree hdirty
    constructor
    · rw [block_cache_read_offset_miss disk now dev sector ofs len blocks hne hmiss,
          hfree, hdirty]
      simp
    · rw [block_cache_write_offset_miss disk now dev sector ofs src blocks hne hmiss,
          hfree, hdirty]
      simp
  · rw [block_cache_read_offset_miss disk now dev sector ofs len blocks hne hmiss]

set_option maxRecDepth 40000 in
/-- Witness for C5 at a concrete input: on a miss for sector 5 in
evictionCache the victim is the dirty entry for sector 9 with minimal
last_touched, and the read path first writes it back, then reads
sector 5. -/
theorem cache_eviction_victim_witness :
    ((evictionCache.getD (listMinIdx evictionCache) default).lastTouched
       ≤ (evictionCache.getD 37 default).lastTouched)
    ∧ (block_cache_read_offset disk0 100 0 5 0 BLOCK_SECTOR_SIZE evictionCache).2.1
        = [DevEvent.devWrite (evictionCache.getD (listMinIdx evictionCache) default).dev
             (evictionCache.getD (listMinIdx evictionCache) default).sector
             (evictionCache.getD (listMinIdx evictionCache) default).buffer,
           DevEvent.devRead 0 5] := by
  have h := cache_eviction_victim disk0 100 0 5 0 BLOCK_SECTOR_SIZE fullSrc
    evictionCache (by decide) (by decide)
  exact ⟨h.1 _ (by decide), (h.2.1 (by decide) (by decide)).1⟩

set_option maxRecDepth 40000 in
/-- C3 counterexample: in the freshly initialised cache, a write covering
the full sector (offset 0, length 512) of (device 0, sector 5) misses,
and block_cache_write_offset then reads sector 5 from the device before
overwriting it (first event) and writes the sector straight through to
the device (second event), leaving the refilled entry (which ends up at
position 63 after the sort) with dirty = false, contrary to the claim
that a full-sector write skips the device read, that the entry is marked
dirty, and that the write is not immediately written through. -/
theorem full_sector_miss_write_counterexample :
    (block_cache_write_offset disk0 100 0 5 0 fullSrc cacheInit64).1
      = [DevEvent.devRead 0 5, DevEvent.devWrite 0 5 (memWrite (disk0 0 5) 0 fullSrc)]
    ∧ ((block_cache_write_offset disk0 100 0 5 0 fullSrc cacheInit64).2.getD 63
        default).dirty = false
    ∧ ((block_cache_write_offset disk0 100 0 5 0 fullSrc cacheInit64).2.getD 63
        default).sector = 5 := by
  refine ⟨?_, by decide, by decide⟩
  rw [block_cache_write_offset_miss disk0 100 0 5 0 fullSrc cacheInit64
    (by decide) (by decide)]
  decide

/-- C3 (amended): on a cache hit, a write (full-sector or partial) copies
the chunk into the cached buffer in place, marks the entry dirty,
issues no device I/O, and preserves the buffer's bytes outside the
written range; on a cache miss, the victim entry is refilled by reading
the sector from the device first even when the write covers the whole
sector, the chunk is applied, the whole sector is immediately written
through to the device, and the entry is left clean (dirty = false) —
only the hit path is write-back. -/
theorem cache_write_semantics (disk : Nat → Nat → SectorData) (now : Int)
    (dev sector ofs : Nat) (src : SectorData) (blocks : List CacheBlock) :
    (∀ i, cacheFind blocks dev sector = some i →
      (block_cache_write_offset disk now dev sector ofs src blocks).1 = []
      ∧ (block_cache_write_offset disk now dev sector ofs src blocks).2
          = list_sort (blocks.set i
              { blocks.getD i default with
                buffer := memWrite (blocks.getD i default).buffer ofs src,
                dirty := true, lastTouched := now }))
    ∧ (blocks ≠ [] → cacheFind blocks dev sector = none →
      (block_cache_write_offset disk now dev sector ofs src blocks).1
        = (if !(blocks.getD (listMinIdx blocks) default).free
              && (blocks.getD (listMinIdx blocks) default).dirty
           then [DevEvent.devWrite (blocks.getD (listMinIdx blocks) default).dev
                   (blocks.getD (listMinIdx blocks) default).sector
                   (blocks.getD (listMinIdx blocks) default).buffer]
           else []) ++ [DevEvent.devRead dev sector,
                        DevEvent.devWrite dev sector (memWrite (disk dev sector) ofs src)]
      ∧ (block_cache_write_offset disk now dev sector ofs src blocks).2
          = list_sort (blocks.set (listMinIdx blocks)
              { dirty := false, free := false, dev := dev, sector := sector,
                buffer := memWrite (disk dev sector) ofs src, lastTouched := now }))
    ∧ (∀ (buf : SectorData) (j : Nat), j < ofs → ofs ≤ buf.length →
        (memWrite buf ofs src).getD j 0 = buf.getD j 0)
    ∧ (∀ (buf : SectorData) (j : Nat), ofs + src.length ≤ j →
        ofs + src.length ≤ buf.length →
        (memWrite buf ofs src).getD j 0 = buf.getD j 0) := by
  refine ⟨?_, ?_, ?_, ?_⟩
  · intro i hhit
    rw [block_cache_write_offset_hit disk now dev sector ofs src blocks i hhit]
    exact ⟨rfl, rfl⟩
  · intro hne hmiss
    rw [block_cache_write_offset_miss disk now dev sector ofs src blocks hne hmiss]
    exact ⟨rfl, rfl⟩
  · intro buf j hj hofs
    exact memWrite_getD_lt buf src ofs j hj hofs
  · intro buf j hj hlen
    exact memWrite_getD_ge buf src ofs j hj hlen

set_option maxRecDepth 40000 in
/-- Witness for the amended C3 at concrete inputs: a 2-byte write at
offset 3 that hits issues no device I/O, a full-sector write that
misses in the fresh cache reads the sector and writes it through, and
a byte below the written range is preserved. -/
theorem cache_write_semantics_witness :
    (block_cache_write_offset disk0 9 0 5 3 [7, 7] hitCache).1 = []
    ∧ (block_cache_write_offset disk0 100 0 5 0 fullSrc cacheInit64).1
        = (if !(cacheInit64.getD (listMinIdx cacheInit64) default).free
              && (cacheInit64.getD (listMinIdx cacheInit64) default).dirty
           then [DevEvent.devWrite (cacheInit64.getD (listMinIdx cacheInit64) default).dev
                   (cacheInit64.getD (listMinIdx cacheInit64) default).sector
                   (cacheInit64.getD (listMinIdx cacheInit64) default).buffer]
           else []) ++ [DevEvent.devRead 0 5,
                        DevEvent.devWrite 0 5 (memWrite (disk0 0 5) 0 fullSrc)]
    ∧ (memWrite (List.replicate BLOCK_SECTOR_SIZE 1) 3 [7, 7]).getD 0 0
        = (List.replicate BLOCK_SECTOR_SIZE 1 : SectorData).getD 0 0 := by
  refine ⟨((cache_write_semantics disk0 9 0 5 3 [7, 7] hitCache).1 0 (by decide)).1,
    ((cache_write_semantics disk0 100 0 5 0 fullSrc cacheInit64).2.1
      (by decide) (by decide)).1, ?_⟩
  exact (cache_write_semantics disk0 9 0 5 3 [7, 7] hitCache).2.2.1
    (List.replicate BLOCK_SECTOR_SIZE 1) 0 (by decide) (by decide)

/-- C6: for every byte offset p with p < L, byte_to_sector returns
direct[p/512] in the direct range, the entry at index (p - 12*512)/512
of the indirect block in the indirect range, and in the doubly-indirect
range the entry at second-level index ((p - 140*512)/512) mod 128 of
the indirect block found at first-level index (p - 140*512)/(128*512)
of the doubly-indirect block. -/
theorem byte_to_sector_addressing (st : FsState) (d : InodeDisk) (pos : Nat)
    (h : pos < d.length) :
    (pos < 12 * BLOCK_SECTOR_SIZE →
      byte_to_sector st d pos = some (d.direct.getD (pos / BLOCK_SECTOR_SIZE) 0))
    ∧ (12 * BLOCK_SECTOR_SIZE ≤ pos → pos < (12 + 128) * BLOCK_SECTOR_SIZE →
      byte_to_sector st d pos
        = some (st.disk d.indirect
            ((pos - 12 * BLOCK_SECTOR_SIZE) / BLOCK_SECTOR_SIZE)))
    ∧ ((12 + 128) * BLOCK_SECTOR_SIZE ≤ pos →
       pos < (12 + 128 + 128 * 128) * BLOCK_SECTOR_SIZE →
      byte_to_sector st d pos
        = some (st.disk
            (st.disk d.doubly
              ((pos - (12 + 128) * BLOCK_SECTOR_SIZE) / (128 * BLOCK_SECTOR_SIZE)))
            ((pos - (12 + 128) * BLOCK_SECTOR_SIZE) / BLOCK_SECTOR_SIZE % 128))) := by
  refine ⟨?_, ?_, ?_⟩
  · intro h1
    rw [byte_to_sector, if_pos h, if_pos h1]
  · intro h1 h2
    rw [byte_to_sector, if_pos h, if_neg (not_lt.mpr h1), if_pos h2]
  · intro h1 h2
    have h1' : ¬ pos < 12 * BLOCK_SECTOR_SIZE := by
      simp only [BLOCK_SECTOR_SIZE] at h1 ⊢
      omega
    have h1'' : ¬ pos < (12 + 128) * BLOCK_SECTOR_SIZE := not_lt.mpr h1
    rw [byte_to_sector, if_pos h, if_neg h1', if_neg h1'', if_pos h2,
        Nat.div_div_eq_div_mul, Nat.mul_comm BLOCK_SECTOR_SIZE 128]

/-- Witness for C6: the three address ranges evaluated at concrete offsets
in the fully populated inode dFull. -/
theorem byte_to_sector_addressing_witness :
    byte_to_sector stFull dFull 100
      = some (dFull.direct.getD (100 / BLOCK_SECTOR_SIZE) 0)
    ∧ byte_to_sector stFull dFull 6500
      = some (stFull.disk dFull.indirect
          ((6500 - 12 * BLOCK_SECTOR_SIZE) / BLOCK_SECTOR_SIZE))
    ∧ byte_to_sector stFull dFull 400000
      = some (stFull.disk
          (stFull.disk dFull.doubly
            ((400000 - (12 + 128) * BLOCK_SECTOR_SIZE) / (128 * BLOCK_SECTOR_SIZE)))
          ((400000 - (12 + 128) * BLOCK_SECTOR_SIZE) / BLOCK_SECTOR_SIZE % 128)) := by
  refine ⟨?_, ?_, ?_⟩
  · exact (byte_to_sector_addressing stFull dFull 100 (by decide)).1 (by decide)
  · exact (byte_to_sector_addressing stFull dFull 6500 (by decide)).2.1
      (by decide) (by decide)
  · exact (byte_to_sector_addressing stFull dFull 400000 (by decide)).2.2
      (by decide) (by decide)

theorem resize_direct_noop (L : Nat) :
    ∀ (is : List Nat) (d : InodeDisk) (st : FsState),
      (∀ i ∈ is, d.direct.getD i 0 ≠ 0 ∧ BLOCK_SECTOR_SIZE * i < L) →
      resize_direct L is d st = .ok (d, st) := by
  intro is
  induction is with
  | nil => intro d st _; rfl
  | cons i rest ih =>
    intro d st h
    obtain ⟨hne, hlt⟩ := h i (List.mem_cons_self _ _)
    simp only [resize_direct]
    rw [if_neg (fun hc => absurd hc.1 (not_le.mpr hlt) :
          ¬(L ≤ BLOCK_SECTOR_SIZE * i ∧ d.direct.getD i 0 ≠ 0))]
    rw [if_neg (fun hc => hne hc.2 :
          ¬(BLOCK_SECTOR_SIZE * i < L ∧ (d, st).1.direct.getD i 0 = 0))]
    exact ih d st (fun j hj => h j (List.mem_cons_of_mem _ hj))

theorem resize_indirect_noop (L : Nat) :
    ∀ (is : List Nat) (buf : Block) (st : FsState),
      (∀ i ∈ is, buf i ≠ 0 ∧ (12 + i) * BLOCK_SECTOR_SIZE < L) →
      resize_indirect L is buf st = .ok (buf, st) := by
  intro is
  induction is with
  | nil => intro buf st _; rfl
  | cons i rest ih =>
    intro buf st h
    obtain ⟨hne, hlt⟩ := h i (List.mem_cons_self _ _)
    simp only [resize_indirect]
    rw [if_neg (fun hc => absurd hc.1 (not_le.mpr hlt) :
          ¬(L ≤ (12 + i) * BLOCK_SECTOR_SIZE ∧ buf i ≠ 0))]
    rw [if_neg (fun hc => hne hc.2 :
          ¬((12 + i) * BLOCK_SECTOR_SIZE < L ∧ (buf, st).1 i = 0))]
    exact ih buf st (fun j hj => h j (List.mem_cons_of_mem _ hj))

theorem resize_inside_noop (L i : Nat) :
    ∀ (js : List Nat) (ins : Block) (st : FsState),
      (∀ j ∈ js, ins j ≠ 0 ∧ (12 + 128 + 128 * i + j) * BLOCK_SECTOR_SIZE < L) →
      resize_inside L i js ins st = .ok (ins, st) := by
  intro js
  induction js with
  | nil => intro ins st _; rfl
  | cons j rest ih =>
    intro ins st h
    obtain ⟨hne, hlt⟩ := h j (List.mem_cons_self _ _)
    simp only [resize_inside]
    rw [if_neg (fun hc => absurd hc.1 (not_le.mpr hlt) :
          ¬(L ≤ (12 + 128 + 128 * i + j) * BLOCK_SECTOR_SIZE ∧ ins j ≠ 0))]
    rw [if_neg (fun hc => hne hc.2 :
          ¬((12 + 128 + 128 * i + j) * BLOCK_SECTOR_SIZE < L ∧ (ins, st).1 j = 0))]
    exact ih ins st (fun k hk => h k (List.mem_cons_of_mem _ hk))

/-- In a resize whose target exceeds every slot's threshold and whose
doubly-indirect entries are all allocated, the doubly loop neither
breaks, nor allocates, nor releases: it only rewrites each inner block
with its unchanged contents.  The disk stays pointwise equal to the
reference D and the free map is untouched. -/
theorem resize_doubly_noop (L : Nat) (D : Nat → Block) :
    ∀ (is : List Nat) (buf : Block) (st : FsState),
      (∀ x y, st.disk x y = D x y) →
      (∀ i ∈ is, i < 128 ∧ buf i ≠ 0 ∧ (12 + 128 + 128 * i) * BLOCK_SECTOR_SIZE < L
        ∧ ∀ j, j < 128 → D (buf i) j ≠ 0
        ∧ (12 + 128 + 128 * i + j) * BLOCK_SECTOR_SIZE < L) →
      ∃ st', resize_doubly L is buf st = .done buf st'
        ∧ st'.fm = st.fm ∧ (∀ x y, st'.disk x y = D x y) := by
  intro is
  induction is with
  | nil =>
    intro buf st hdisk _
    exact ⟨st, rfl, rfl, hdisk⟩
  | cons i rest ih =>
    intro buf st hdisk h
    obtain ⟨hi, hne, hlt, hinner⟩ := h i (List.mem_cons_self _ _)
    have hins : ∀ j ∈ List.range 128,
        st.disk (buf i) j ≠ 0
        ∧ (12 + 128 + 128 * i + j) * BLOCK_SECTOR_SIZE < L := by
      intro j hj
      rw [hdisk]
      exact hinner j (List.mem_range.mp hj)
    simp only [resize_doubly]
    rw [if_neg (fun hc => hne hc.1 :
          ¬(buf i = 0 ∧ L ≤ (12 + 128 + 128 * i) * BLOCK_SECTOR_SIZE))]
    rw [if_neg hne]
    dsimp only
    rw [resize_inside_noop L i (List.range 128) (st.disk (buf i)) st hins]
    dsimp only
    rw [if_neg (fun hc => absurd hc.2 (not_le.mpr hlt) :
          ¬(buf i ≠ 0 ∧ L ≤ (12 + 128 + 128 * i) * BLOCK_SECTOR_SIZE))]
    refine ih buf { st with disk := updateD st.disk (buf i) (st.disk (buf i)) } ?_
      (fun j hj => h j (List.mem_cons_of_mem _ hj))
    intro x y
    simp only [updateD]
    by_cases hx : x = buf i
    · rw [if_pos hx, hdisk, hx]
    · rw [if_neg hx, hdisk]

/-- C1: inode_resize performs no capacity check.  For every inode whose
extent tree is completely full (length is irrelevant to the run) and
every target length beyond the (12+128+128*128)*512-byte capacity, the
resize returns true and stores the out-of-range length — it does not
fail as the claim requires.  (byte_to_sector then has no defined
mapping for offsets at or beyond the capacity: the C if-chain falls
through without a return.) -/
theorem resize_beyond_capacity_succeeds (d : InodeDisk) (st : FsState) (L : Nat)
    (hL : MAX_BYTES < L)
    (hdir : ∀ i, i < 12 → d.direct.getD i 0 ≠ 0)
    (hind : d.indirect ≠ 0)
    (hdbl : d.doubly ≠ 0)
    (hindblk : ∀ i, i < 128 → st.disk d.indirect i ≠ 0)
    (hdblblk : ∀ i, i < 128 → st.disk d.doubly i ≠ 0)
    (hinner : ∀ i, i < 128 → ∀ j, j < 128 → st.disk (st.disk d.doubly i) j ≠ 0) :
    (inode_resize d L st).1 = true
    ∧ (inode_resize d L st).2.1.length = L := by
  have hcap : ∀ k, k ≤ 16523 → k * BLOCK_SECTOR_SIZE < L := by
    intro k hk
    have : k * BLOCK_SECTOR_SIZE ≤ 16523 * BLOCK_SECTOR_SIZE :=
      Nat.mul_le_mul_right _ hk
    have hmb : 16523 * BLOCK_SECTOR_SIZE < MAX_BYTES := by
      simp [MAX_BYTES, BLOCK_SECTOR_SIZE]
    omega
  have hdirect : resize_direct L (List.range 12) d st = .ok (d, st) :=
    resize_direct_noop L (List.range 12) d st (by
      intro i hi
      have hi' := List.mem_range.mp hi
      refine ⟨hdir i hi', ?_⟩
      rw [Nat.mul_comm]
      exact hcap i (by omega))
  have hindloop : resize_indirect L (List.range 128) (st.disk d.indirect) st
      = .ok (st.disk d.indirect, st) :=
    resize_indirect_noop L (List.range 128) (st.disk d.indirect) st (by
      intro i hi
      have hi' := List.mem_range.mp hi
      exact ⟨hindblk i hi', hcap (12 + i) (by omega)⟩)
  have hnot12 : ¬ L ≤ 12 * 512 := by
    have := hcap 12 (by omega)
    simp only [BLOCK_SECTOR_SIZE] at this
    omega
  have hnot140 : ¬ L ≤ (12 + 128) * BLOCK_SECTOR_SIZE := by
    have := hcap 140 (by omega)
    omega
  simp only [inode_resize, inode_resize_go, hdirect]
  rw [if_neg (fun hc => hind hc.1 :
        ¬(d.indirect = 0 ∧ L ≤ 12 * BLOCK_SECTOR_SIZE))]
  rw [if_neg hind]
  simp only [hindloop]
  rw [if_neg (fun hc => absurd hc.2 hnot12 : ¬(d.indirect ≠ 0 ∧ L ≤ 12 * 512))]
  have hst1 : ∀ x y,
      (updateD st.disk d.indirect (st.disk d.indirect)) x y = st.disk x y := by
    intro x y
    simp only [updateD]
    by_cases hx : x = d.indirect
    · rw [if_pos hx, hx]
    · rw [if_neg hx]
  rw [if_neg (fun hc => hdbl hc.1 :
        ¬(d.doubly = 0 ∧ L ≤ (12 + 128) * BLOCK_SECTOR_SIZE))]
  rw [if_neg hdbl]
  obtain ⟨st', hrun, _, _⟩ := resize_doubly_noop L st.disk (List.range 128)
    (updateD st.disk d.indirect (st.disk d.indirect) d.doubly)
    { st with disk := updateD st.disk d.indirect (st.disk d.indirect) }
    (fun x y => hst1 x y)
    (by
      intro i hi
      have hi' := List.mem_range.mp hi
      rw [hst1]
      refine ⟨hi', hdblblk i hi', hcap (12 + 128 + 128 * i) (by omega), ?_⟩
      intro j hj
      exact ⟨hinner i hi' j hj, hcap (12 + 128 + 128 * i + j) (by omega)⟩)
  simp only [hrun]
  exact ⟨trivial, trivial⟩

set_option maxRecDepth 200000 in
/-- Witness for C1: the concrete full inode dFull over stFull, resized to
MAX_BYTES + 1 = 8460289 bytes: the resize reports success. -/
theorem resize_beyond_capacity_succeeds_witness :
    (inode_resize dFull (MAX_BYTES + 1) stFull).1 = true
    ∧ (inode_resize dFull (MAX_BYTES + 1) stFull).2.1.length = MAX_BYTES + 1 :=
  resize_beyond_capacity_succeeds dFull stFull (MAX_BYTES + 1)
    (by decide) (by decide) (by decide) (by decide)
    (by decide) (by decide) (by decide)

theorem gnp_loop_spec :
    ∀ (s dst : List Char), dst.length ≤ NAME_MAX →
      (if dst.length + (s.takeWhile (fun c => c ≠ '/')).length ≤ NAME_MAX
       then gnp_loop s dst
         = some (dst.reverse ++ s.takeWhile (fun c => c ≠ '/'),
                 s.drop (s.takeWhile (fun c => c ≠ '/')).length)
       else gnp_loop s dst = none) := by
  intro s
  induction s with
  | nil =>
    intro dst hdst
    rw [if_pos (by simpa using hdst)]
    simp [gnp_loop]
  | cons c rest ih =>
    intro dst hdst
    by_cases hc : c = '/'
    · rw [if_pos (by simp [hc, List.takeWhile_cons]; omega)]
      simp [gnp_loop, hc, List.takeWhile_cons]
    · have htw : (c :: rest).takeWhile (fun c => c ≠ '/')
          = c :: rest.takeWhile (fun c => c ≠ '/') := by
        simp [List.takeWhile, hc]
      by_cases hfit : dst.length < NAME_MAX
      · have := ih (c :: dst) (by simpa using hfit)
        rw [htw]
        by_cases hcond : dst.length
            + (c :: rest.takeWhile (fun c => c ≠ '/')).length ≤ NAME_MAX
        · rw [if_pos hcond]
          rw [if_pos (by simp at hcond ⊢; omega)] at this
          rw [gnp_loop, if_neg hc, if_pos hfit, this]
          simp
        · rw [if_neg hcond]
          rw [if_neg (by simp at hcond ⊢; omega)] at this
          rw [gnp_loop, if_neg hc, if_pos hfit, this]
      · have heq : dst.length = NAME_MAX := by omega
        rw [htw, if_neg (by simp only [heq, List.length_cons]; omega)]
        rw [gnp_loop, if_neg hc, if_neg hfit]

/-- C8: get_next_part first skips leading '/' characters; if the remainder
is empty it returns 0; otherwise the next component is the maximal
'/'-free run: when that run is longer than NAME_MAX = 14 the function
returns -1 (leaving *srcp unchanged), and otherwise it returns 1
together with the component and the source advanced past the consumed
characters (to the terminating '/' or the end). -/
theorem get_next_part_spec (src : List Char) :
    (src.dropWhile (fun c => c = '/') = [] → get_next_part src = (0, [], src))
    ∧ (src.dropWhile (fun c => c = '/') ≠ [] →
       NAME_MAX < ((src.dropWhile (fun c => c = '/')).takeWhile
           (fun c => c ≠ '/')).length →
       get_next_part src = (-1, [], src))
    ∧ (src.dropWhile (fun c => c = '/') ≠ [] →
       ((src.dropWhile (fun c => c = '/')).takeWhile (fun c => c ≠ '/')).length
           ≤ NAME_MAX →
       get_next_part src
         = (1, (src.dropWhile (fun c => c = '/')).takeWhile (fun c => c ≠ '/'),
            (src.dropWhile (fun c => c = '/')).drop
              ((src.dropWhile (fun c => c = '/')).takeWhile
                (fun c => c ≠ '/')).length)) := by
  refine ⟨?_, ?_, ?_⟩
  · intro h
    rw [get_next_part, h]
  · intro hne hlong
    cases hd : src.dropWhile (fun c => c = '/') with
    | nil => exact absurd hd hne
    | cons c rest =>
      rw [hd] at hlong
      have := gnp_loop_spec (c :: rest) [] (by simp [NAME_MAX])
      rw [if_neg (by simp at hlong ⊢; omega)] at this
      rw [get_next_part, hd]
      dsimp only
      rw [this]
  · intro hne hfit
    cases hd : src.dropWhile (fun c => c = '/') with
    | nil => exact absurd hd hne
    | cons c rest =>
      rw [hd] at hfit
      have := gnp_loop_spec (c :: rest) [] (by simp)
      rw [if_pos (by simp at hfit ⊢; omega)] at this
      rw [get_next_part, hd]
      dsimp only
      rw [this]
      simp

/-- Witness for C8 at concrete inputs: an all-slash string signals end, a
15-character component signals too-long, and "//ab/c" yields component
"ab" with the source advanced to "/c". -/
theorem get_next_part_spec_witness :
    get_next_part ['/', '/'] = (0, [], ['/', '/'])
    ∧ get_next_part (List.replicate 15 'x') = (-1, [], List.replicate 15 'x')
    ∧ get_next_part ['/', '/', 'a', 'b', '/', 'c']
        = (1, (['/', '/', 'a', 'b', '/', 'c'].dropWhile
                 (fun c => c = '/')).takeWhile (fun c => c ≠ '/'),
           (['/', '/', 'a', 'b', '/', 'c'].dropWhile
              (fun c => c = '/')).drop
             ((['/', '/', 'a', 'b', '/', 'c'].dropWhile
                (fun c => c = '/')).takeWhile (fun c => c ≠ '/')).length) := by
  refine ⟨(get_next_part_spec ['/', '/']).1 (by decide),
    (get_next_part_spec (List.replicate 15 'x')).2.1 (by decide) (by decide),
    (get_next_part_spec ['/', '/', 'a', 'b', '/', 'c']).2.2 (by decide) (by decide)⟩

theorem path_is_empty_dir_iff (entries : List DirEntry) :
    path_is_empty_dir entries = true
      ↔ ∀ e ∈ entries, e.in_use = true → e.name = "." ∨ e.name = ".." := by
  induction entries with
  | nil => simp [path_is_empty_dir]
  | cons e rest ih =>
    by_cases hu : e.in_use = true
    · by_cases hn : e.name = "." ∨ e.name = ".."
      · rw [path_is_empty_dir, if_neg (by simp [hu]),
            if_pos (by rcases hn with h | h <;> simp [h]), ih]
        constructor
        · intro h x hx hxu
          rcases List.mem_cons.mp hx with rfl | hx
          · exact hn
          · exact h x hx hxu
        · intro h x hx hxu
          exact h x (List.mem_cons_of_mem _ hx) hxu
      · rw [path_is_empty_dir, if_neg (by simp [hu]),
            if_neg (by push_neg at hn; simp [hn.1, hn.2])]
        constructor
        · intro h; cases h
        · intro h
          exact absurd (h e (List.mem_cons_self _ _) hu) hn
    · rw [path_is_empty_dir, if_pos (by simp [hu]), ih]
      constructor
      · intro h x hx hxu
        rcases List.mem_cons.mp hx with rfl | hx
        · exact absurd hxu hu
        · exact h x hx hxu
      · intro h x hx hxu
        exact h x (List.mem_cons_of_mem _ hx) hxu

/-- The directory branch of sys_remove, as one conditional: fail on the
cwd, fail on root, otherwise succeed iff the directory is empty. -/
theorem sys_remove_dir_eq (entries : List DirEntry) (inumber : Nat)
    (cwd : Option Nat) :
    sys_remove_dir entries inumber cwd
      = if cwd = some inumber then false
        else if inumber = ROOT_DIR_SECTOR then false
        else path_is_empty_dir entries := by
  cases cwd with
  | none =>
    by_cases hroot : inumber = ROOT_DIR_SECTOR
    · simp [sys_remove_dir, hroot]
    · cases hres : path_is_empty_dir entries <;>
        simp [sys_remove_dir, hroot, hres, filesys_remove_existing]
  | some c =>
    by_cases hc : c = inumber
    · by_cases hroot : inumber = ROOT_DIR_SECTOR <;>
        simp [sys_remove_dir, hc, hroot]
    · have hc' : ¬ (some c = some inumber) := by simp [hc]
      by_cases hroot : inumber = ROOT_DIR_SECTOR
      · simp [sys_remove_dir, hc, hroot, hc']
      · cases hres : path_is_empty_dir entries <;>
          simp [sys_remove_dir, hc, hroot, hres, hc', filesys_remove_existing]

/-- C7: removing a path that names a directory succeeds iff the directory
has no in-use entries other than "." and "..", it is not the root
directory, and it is not the calling thread's current working
directory.  (filesys_remove, ROOT_DIR_SECTOR and the dir_readdir
iteration are modelled from the spec, dir.c/filesys.c/filesys.h not
being under src/.) -/
theorem sys_remove_dir_iff (entries : List DirEntry) (inumber : Nat)
    (cwd : Option Nat) :
    sys_remove_dir entries inumber cwd = true
      ↔ ((∀ e ∈ entries, e.in_use = true → e.name = "." ∨ e.name = "..")
         ∧ inumber ≠ ROOT_DIR_SECTOR ∧ cwd ≠ some inumber) := by
  rw [sys_remove_dir_eq]
  by_cases hcwd : cwd = some inumber
  · simp [hcwd]
  · by_cases hroot : inumber = ROOT_DIR_SECTOR
    · simp [hcwd, hroot]
    · simp [hcwd, hroot, path_is_empty_dir_iff]

/-- Witness for C7: a directory containing only in-use "." and ".."
entries at sector 7 with cwd elsewhere is removable; the same directory
as the cwd is not. -/
theorem sys_remove_dir_iff_witness :
    sys_remove_dir
      [{ inode_sector := 7, name := ".", in_use := true },
       { inode_sector := 1, name := "..", in_use := true },
       { inode_sector := 9, name := "gone", in_use := false }] 7 (some 3) = true
    ∧ sys_remove_dir
      [{ inode_sector := 7, name := ".", in_use := true },
       { inode_sector := 1, name := "..", in_use := true }] 7 (some 7) = false := by
  constructor
  · exact (sys_remove_dir_iff _ 7 (some 3)).mpr
      ⟨by decide, by decide, by decide⟩
  · have h := sys_remove_dir_iff
      [{ inode_sector := 7, name := ".", in_use := true },
       { inode_sector := 1, name := "..", in_use := true }] 7 (some 7)
    cases hres : sys_remove_dir
        [{ inode_sector := 7, name := ".", in_use := true },
         { inode_sector := 1, name := "..", in_use := true }] 7 (some 7) with
    | false => rfl
    | true => exact absurd ((h.mp hres).2.2) (by decide)

theorem rw_chunk_le (length size offset : Nat) :
    rw_chunk length size offset
      ≤ (BLOCK_SECTOR_SIZE : Int) - ((offset % BLOCK_SECTOR_SIZE : Nat) : Int) := by
  simp only [rw_chunk]
  split_ifs <;> omega

theorem inode_rw_calls_bound (length : Nat) :
    ∀ (size offset : Nat) (p : Nat × Nat), p ∈ inode_rw_calls length size offset →
      p.2 + p.1 ≤ BLOCK_SECTOR_SIZE := by
  intro size
  induction size using Nat.strong_induction_on with
  | _ size ih =>
    intro offset p hp
    rw [inode_rw_calls] at hp
    by_cases h0 : size = 0
    · rw [if_pos h0] at hp
      cases hp
    · rw [if_neg h0] at hp
      by_cases hc : rw_chunk length size offset ≤ 0
      · rw [if_pos hc] at hp
        cases hp
      · rw [if_neg hc] at hp
        rcases List.mem_cons.mp hp with rfl | hp
        · have hle := rw_chunk_le length size offset
          have hmod : offset % BLOCK_SECTOR_SIZE < BLOCK_SECTOR_SIZE :=
            Nat.mod_lt _ (by simp [BLOCK_SECTOR_SIZE])
          simp only
          omega
        · exact ih (size - (rw_chunk length size offset).toNat)
            (by omega) _ p hp

/-- C10: every (sector_ofs, chunk_size) pair passed to the block cache by
the copy loops of inode_read_at and inode_write_at satisfies
chunk_size + sector_ofs <= BLOCK_SECTOR_SIZE, because sector_ofs is
offset mod 512 and chunk_size is capped by 512 - sector_ofs; hence the
assertion at the entry of block_cache_read_offset /
block_cache_write_offset never fails on these call paths. -/
theorem inode_rw_calls_assert (length size offset : Nat) :
    (∀ p ∈ inode_read_at_calls length size offset,
        p.2 + p.1 ≤ BLOCK_SECTOR_SIZE)
    ∧ (∀ p ∈ inode_write_at_calls length size offset,
        p.2 + p.1 ≤ BLOCK_SECTOR_SIZE) :=
  ⟨fun p hp => inode_rw_calls_bound length size offset p hp,
   fun p hp => inode_rw_calls_bound length size offset p hp⟩

/-- Witness for C10: a 600-byte read of a 600-byte inode at offset 70
issues the calls (70, 442) and (0, 88) — the second chunk is capped by
the 88 bytes left in the inode — each within the sector bound. -/
theorem inode_rw_calls_assert_witness :
    inode_read_at_calls 600 600 70 = [(70, 442), (0, 88)]
    ∧ ((70, 442) ∈ inode_read_at_calls 600 600 70 →
        (70, 442).2 + (70, 442).1 ≤ BLOCK_SECTOR_SIZE)
    ∧ ((0, 88) ∈ inode_write_at_calls 600 600 70 →
        (0, 88).2 + (0, 88).1 ≤ BLOCK_SECTOR_SIZE) := by
  refine ⟨?_, ?_, ?_⟩
  · rw [inode_read_at_calls,
        inode_rw_calls, if_neg (by decide : ¬(600 = 0)), if_neg (by decide)]
    have h1 : (rw_chunk 600 600 70).toNat = 442 := by decide
    rw [h1]
    norm_num
    rw [inode_rw_calls, if_neg (by decide : ¬(158 = 0)), if_neg (by decide)]
    have h2 : (rw_chunk 600 158 512).toNat = 88 := by decide
    rw [h2]
    norm_num
    rw [inode_rw_calls, if_neg (by decide : ¬(70 = 0)), if_pos (by decide)]
    exact ⟨by decide, by decide, rfl⟩
  · exact fun hp => (inode_rw_calls_assert 600 600 70).1 _ hp
  · exact fun hp => (inode_rw_calls_assert 600 600 70).2 _ hp

/-! # Helper lemmas for deferred deletion (C4) -/

theorem getD_set_ne {α : Type} :
    ∀ (l : List α) (i j : Nat) (a d : α), i ≠ j →
      (l.set i a).getD j d = l.getD j d := by
  intro l
  induction l with
  | nil => intro i j a d _; rfl
  | cons b t ih =>
    intro i j a d hij
    cases i with
    | zero =>
      cases j with
      | zero => exact absurd rfl hij
      | succ j => rfl
    | succ i =>
      cases j with
      | zero => rfl
      | succ j =>
        simp only [List.set_cons_succ, List.getD_cons_succ]
        exact ih i j a d (fun h => hij (by rw [h]))

theorem updateF_ne (f : Block) (i v j : Nat) (hij : j ≠ i) :
    updateF f i v j = f j := by
  simp [updateF, hij]

theorem freeCount_set_false :
    ∀ (fm : List Bool) (s : Nat), s < fm.length → fm.getD s false = true →
      freeCount (fm.set s false) = freeCount fm + 1 := by
  intro fm
  induction fm with
  | nil => intro s h _; cases h
  | cons b t ih =>
    intro s hs hb
    cases s with
    | zero =>
      simp only [List.getD_cons_zero] at hb
      simp [freeCount, List.countP_cons, hb]
    | succ s =>
      simp only [List.getD_cons_succ] at hb
      have := ih s (by simpa using hs) hb
      simp only [List.set_cons_succ]
      simp [freeCount, List.countP_cons] at this ⊢
      omega

theorem freeCount_releaseAll :
    ∀ (l : List Nat) (fm : List Bool), l.Nodup →
      (∀ s ∈ l, s < fm.length ∧ fm.getD s false = true) →
      freeCount (releaseAll l fm) = freeCount fm + l.length := by
  intro l
  induction l with
  | nil => intro fm _ _; rfl
  | cons s t ih =>
    intro fm hnd hall
    have hs := hall s (List.mem_cons_self _ _)
    have hstep : freeCount (free_map_release s fm) = freeCount fm + 1 :=
      freeCount_set_false fm s hs.1 hs.2
    have hrec := ih (free_map_release s fm) (List.Nodup.of_cons hnd) (by
      intro x hx
      have hxs : s ≠ x := by
        intro h
        exact (List.nodup_cons.mp hnd).1 (h ▸ hx)
      have := hall x (List.mem_cons_of_mem _ hx)
      refine ⟨by simpa [free_map_release] using this.1, ?_⟩
      rw [free_map_release, getD_set_ne fm s x false false hxs]
      exact this.2)
    have hfold : releaseAll (s :: t) fm = releaseAll t (free_map_release s fm) := rfl
    rw [hfold, hrec, hstep]
    simp
    omega

theorem releaseAll_append (a b : List Nat) (fm : List Bool) :
    releaseAll (a ++ b) fm = releaseAll b (releaseAll a fm) := by
  simp [releaseAll, List.foldl_append]

theorem takeWhile_eq_filter_of_zero_tail :
    ∀ l : List Nat,
      (∀ i j, i ≤ j → j < l.length → l.getD i 0 = 0 → l.getD j 0 = 0) →
      l.takeWhile (fun s => s ≠ 0) = l.filter (fun s => s ≠ 0) := by
  intro l
  induction l with
  | nil => intro _; rfl
  | cons x t ih =>
    intro h
    by_cases hx : x = 0
    · have hall : ∀ y ∈ t, y = 0 := by
        intro y hy
        obtain ⟨n, rfl⟩ := List.mem_iff_get.mp hy
        have h2 := h 0 (n.val + 1) (by omega)
          (by simp) (by simp [hx])
        rw [List.getD_cons_succ, List.getD_eq_getElem t 0 n.isLt] at h2
        simpa [List.get_eq_getElem] using h2
      have htw : (x :: t).takeWhile (fun s => s ≠ 0) = [] := by
        simp [List.takeWhile_cons, hx]
      have hfil : (x :: t).filter (fun s => s ≠ 0) = [] := by
        rw [List.filter_eq_nil_iff]
        intro a ha
        rcases List.mem_cons.mp ha with rfl | ha
        · simp [hx]
        · simp [hall a ha]
      rw [htw, hfil]
    · have ht : ∀ i j, i ≤ j → j < t.length → t.getD i 0 = 0 → t.getD j 0 = 0 := by
        intro i j hij hj hi
        have := h (i + 1) (j + 1) (by omega) (by simpa using Nat.succ_lt_succ hj)
          (by simpa [List.getD_cons_succ] using hi)
        simpa [List.getD_cons_succ] using this
      have hih := ih ht
      simp only [ne_eq, decide_not] at hih
      simp [List.takeWhile_cons, List.filter_cons, hx, hih]

/-- For any condition of the form n < 0 ∧ P over Nat, the if takes the
else branch (used for the grow branches of resize when the target
length is 0). -/
theorem if_and_lt_zero {α : Type} {n : Nat} {P : Prop} [Decidable (n < 0 ∧ P)]
    {a b : α} : (if n < 0 ∧ P then a else b) = b :=
  if_neg (fun hc => absurd hc.1 (Nat.not_lt_zero _))

theorem releaseAll_cons (s : Nat) (l : List Nat) (fm : List Bool) :
    releaseAll (s :: l) fm = releaseAll l (free_map_release s fm) := rfl

/-- Shrinking to length 0: the direct loop releases exactly the non-null
direct pointers among its indices and zeroes them; the disk and the
other inode fields are untouched. -/
theorem resize_direct_zero :
    ∀ (is : List Nat) (d : InodeDisk) (st : FsState), is.Nodup →
      ∃ d', resize_direct 0 is d st
        = .ok (d',
            { st with fm := releaseAll
                              ((is.map (fun i => d.direct.getD i 0)).filter
                                (fun s => s ≠ 0)) st.fm })
        ∧ d'.indirect = d.indirect ∧ d'.doubly = d.doubly ∧ d'.length = d.length := by
  intro is
  induction is with
  | nil =>
    intro d st _
    exact ⟨d, rfl, rfl, rfl, rfl⟩
  | cons i rest ih =>
    intro d st hnd
    by_cases hz : d.direct.getD i 0 = 0
    · obtain ⟨d', heq, h1, h2, h3⟩ := ih d st (List.Nodup.of_cons hnd)
      refine ⟨d', ?_, h1, h2, h3⟩
      have hlist : ((i :: rest).map (fun j => d.direct.getD j 0)).filter
            (fun s => s ≠ 0)
          = (rest.map (fun j => d.direct.getD j 0)).filter (fun s => s ≠ 0) := by
        rw [List.map_cons, List.filter_cons, hz]
        simp
      rw [hlist]
      simp only [resize_direct]
      rw [if_neg (show ¬((0:Nat) ≤ BLOCK_SECTOR_SIZE * i ∧ d.direct.getD i 0 ≠ 0)
            from fun hc => hc.2 hz)]
      rw [if_and_lt_zero]
      exact heq
    · have hmap : rest.map (fun j =>
            ({ d with direct := d.direct.set i 0 } : InodeDisk).direct.getD j 0)
          = rest.map (fun j => d.direct.getD j 0) :=
        List.map_congr_left (fun j hj =>
          getD_set_ne d.direct i j 0 0
            (fun h => (List.nodup_cons.mp hnd).1 (h ▸ hj)))
      obtain ⟨d', heq, h1, h2, h3⟩ := ih { d with direct := d.direct.set i 0 }
        { st with fm := free_map_release (d.direct.getD i 0) st.fm }
        (List.Nodup.of_cons hnd)
      rw [hmap] at heq
      refine ⟨d', ?_, h1, h2, h3⟩
      have hlist : ((i :: rest).map (fun j => d.direct.getD j 0)).filter
            (fun s => s ≠ 0)
          = d.direct.getD i 0
            :: (rest.map (fun j => d.direct.getD j 0)).filter (fun s => s ≠ 0) := by
        have hz' : d.direct[i]?.getD 0 ≠ 0 := by
          rw [← List.getD_eq_getElem?_getD]
          exact hz
        rw [List.map_cons, List.filter_cons]
        simp [hz']
      rw [hlist, releaseAll_cons]
      simp only [resize_direct]
      rw [if_pos (show (0:Nat) ≤ BLOCK_SECTOR_SIZE * i ∧ d.direct.getD i 0 ≠ 0
            from ⟨Nat.zero_le _, hz⟩)]
      rw [if_and_lt_zero]
      exact heq

/-- Shrinking to length 0: the indirect-leaf loop releases exactly the
non-null pointers in the buffer among its indices. -/
theorem resize_indirect_zero :
    ∀ (is : List Nat) (buf : Block) (st : FsState), is.Nodup →
      ∃ buf', resize_indirect 0 is buf st
        = .ok (buf',
            { st with fm := releaseAll
                              ((is.map buf).filter (fun s => s ≠ 0)) st.fm }) := by
  intro is
  induction is with
  | nil =>
    intro buf st _
    exact ⟨buf, rfl⟩
  | cons i rest ih =>
    intro buf st hnd
    by_cases hz : buf i = 0
    · obtain ⟨buf', heq⟩ := ih buf st (List.Nodup.of_cons hnd)
      refine ⟨buf', ?_⟩
      have hlist : ((i :: rest).map buf).filter (fun s => s ≠ 0)
          = (rest.map buf).filter (fun s => s ≠ 0) := by
        simp [hz]
      rw [hlist]
      simp only [resize_indirect]
      rw [if_neg (show ¬((0:Nat) ≤ (12 + i) * BLOCK_SECTOR_SIZE ∧ buf i ≠ 0)
            from fun hc => hc.2 hz)]
      rw [if_and_lt_zero]
      exact heq
    · have hmap : rest.map (updateF buf i 0) = rest.map buf :=
        List.map_congr_left (fun j hj =>
          updateF_ne buf i 0 j (fun h => (List.nodup_cons.mp hnd).1 (h ▸ hj)))
      obtain ⟨buf', heq⟩ := ih (updateF buf i 0)
        { st with fm := free_map_release (buf i) st.fm } (List.Nodup.of_cons hnd)
      rw [hmap] at heq
      refine ⟨buf', ?_⟩
      have hlist : ((i :: rest).map buf).filter (fun s => s ≠ 0)
          = buf i :: (rest.map buf).filter (fun s => s ≠ 0) := by
        simp [hz]
      rw [hlist, releaseAll_cons]
      simp only [resize_indirect]
      rw [if_pos (show (0:Nat) ≤ (12 + i) * BLOCK_SECTOR_SIZE ∧ buf i ≠ 0
            from ⟨Nat.zero_le _, hz⟩)]
      rw [if_and_lt_zero]
      exact heq

/-- Shrinking to length 0: the inner doubly-indirect leaf loop releases
exactly the non-null pointers in the inside buffer among its indices. -/
theorem resize_inside_zero (i : Nat) :
    ∀ (js : List Nat) (ins : Block) (st : FsState), js.Nodup →
      ∃ ins', resize_inside 0 i js ins st
        = .ok (ins',
            { st with fm := releaseAll
                              ((js.map ins).filter (fun s => s ≠ 0)) st.fm }) := by
  intro js
  induction js with
  | nil =>
    intro ins st _
    exact ⟨ins, rfl⟩
  | cons j rest ih =>
    intro ins st hnd
    by_cases hz : ins j = 0
    · obtain ⟨ins', heq⟩ := ih ins st (List.Nodup.of_cons hnd)
      refine ⟨ins', ?_⟩
      have hlist : ((j :: rest).map ins).filter (fun s => s ≠ 0)
          = (rest.map ins).filter (fun s => s ≠ 0) := by
        simp [hz]
      rw [hlist]
      simp only [resize_inside]
      rw [if_neg (show ¬((0:Nat) ≤ (12 + 128 + 128 * i + j) * BLOCK_SECTOR_SIZE
              ∧ ins j ≠ 0)
            from fun hc => hc.2 hz)]
      rw [if_and_lt_zero]
      exact heq
    · have hmap : rest.map (updateF ins j 0) = rest.map ins :=
        List.map_congr_left (fun k hk =>
          updateF_ne ins j 0 k (fun h => (List.nodup_cons.mp hnd).1 (h ▸ hk)))
      obtain ⟨ins', heq⟩ := ih (updateF ins j 0)
        { st with fm := free_map_release (ins j) st.fm } (List.Nodup.of_cons hnd)
      rw [hmap] at heq
      refine ⟨ins', ?_⟩
      have hlist : ((j :: rest).map ins).filter (fun s => s ≠ 0)
          = ins j :: (rest.map ins).filter (fun s => s ≠ 0) := by
        simp [hz]
      rw [hlist, releaseAll_cons]
      simp only [resize_inside]
      rw [if_pos (show (0:Nat) ≤ (12 + 128 + 128 * i + j) * BLOCK_SECTOR_SIZE
              ∧ ins j ≠ 0
            from ⟨Nat.zero_le _, hz⟩)]
      rw [if_and_lt_zero]
      exact heq


/-- Shrinking to length 0: the loop over the doubly-indirect block's
entries processes the leading run of non-null entries (breaking at the
first null one, or finishing all of them): for each it releases the
inner block's non-null leaves and then the entry itself; the disk is
never written on this path. -/
theorem resize_doubly_zero :
    ∀ (is : List Nat) (buf : Block) (st : FsState), is.Nodup →
      (∃ buf', resize_doubly 0 is buf st
          = .brk buf'
              { st with fm := releaseAll
                                (((is.map buf).takeWhile (fun s => s ≠ 0)).flatMap
                                  (fun s => blockSectors (st.disk s) ++ [s]))
                                st.fm })
      ∨ (∃ buf', resize_doubly 0 is buf st
          = .done buf'
              { st with fm := releaseAll
                                (((is.map buf).takeWhile (fun s => s ≠ 0)).flatMap
                                  (fun s => blockSectors (st.disk s) ++ [s]))
                                st.fm }) := by
  intro is
  induction is with
  | nil =>
    intro buf st _
    exact Or.inr ⟨buf, rfl⟩
  | cons i rest ih =>
    intro buf st hnd
    by_cases hz : buf i = 0
    · refine Or.inl ⟨buf, ?_⟩
      have hlist : ((i :: rest).map buf).takeWhile (fun s => s ≠ 0) = [] := by
        simp [List.takeWhile_cons, hz]
      rw [hlist]
      simp only [resize_doubly]
      rw [if_pos ⟨hz, Nat.zero_le _⟩]
      rfl
    · have hlist : ((i :: rest).map buf).takeWhile (fun s => s ≠ 0)
          = buf i :: (rest.map buf).takeWhile (fun s => s ≠ 0) := by
        simp [List.takeWhile_cons, hz]
      obtain ⟨ins', hins⟩ := resize_inside_zero i (List.range 128)
        (st.disk (buf i)) st (List.nodup_range _)
      have hmap : rest.map (updateF buf i 0) = rest.map buf :=
        List.map_congr_left (fun j hj =>
          updateF_ne buf i 0 j (fun h => (List.nodup_cons.mp hnd).1 (h ▸ hj)))
      have hrec := ih (updateF buf i 0)
        { st with fm := free_map_release (buf i)
                          (releaseAll (blockSectors (st.disk (buf i))) st.fm) }
        (List.Nodup.of_cons hnd)
      rw [hmap] at hrec
      have hstep : resize_doubly 0 (i :: rest) buf st
          = resize_doubly 0 rest (updateF buf i 0)
              { st with fm := free_map_release (buf i)
                                (releaseAll (blockSectors (st.disk (buf i))) st.fm) } := by
        simp only [resize_doubly]
        rw [if_neg (show ¬(buf i = 0
              ∧ (0:Nat) ≤ (12 + 128 + 128 * i) * BLOCK_SECTOR_SIZE)
            from fun hc => hz hc.1)]
        rw [if_neg hz]
        dsimp only
        rw [hins]
        dsimp only
        rw [if_pos (show buf i ≠ 0
              ∧ (0:Nat) ≤ (12 + 128 + 128 * i) * BLOCK_SECTOR_SIZE
            from ⟨hz, Nat.zero_le _⟩)]
        rfl
      rw [hstep, hlist]
      have hflat : (buf i :: (rest.map buf).takeWhile (fun s => s ≠ 0)).flatMap
            (fun s => blockSectors (st.disk s) ++ [s])
          = (blockSectors (st.disk (buf i)) ++ [buf i])
            ++ ((rest.map buf).takeWhile (fun s => s ≠ 0)).flatMap
                 (fun s => blockSectors (st.disk s) ++ [s]) := by
        simp [List.flatMap_cons]
      rw [hflat, releaseAll_append, releaseAll_append]
      exact hrec


/-- inode_resize to length 0 always succeeds (the shrink path performs no
allocation), releases exactly the sectors of treeSectors — every direct
leaf, the indirect block and its leaves, and, up to the first null
doubly-indirect entry, each inner block with its leaves, then the
doubly-indirect block — and leaves the disk contents unchanged.
Well-formedness needed: an inode with a doubly-indirect block also has
an indirect block (otherwise the early return after the direct segment
skips the doubly-indirect teardown). -/
theorem inode_resize_zero (d : InodeDisk) (st : FsState)
    (hio : d.indirect = 0 → d.doubly = 0) :
    (inode_resize d 0 st).1 = true
    ∧ (inode_resize d 0 st).2.2
        = { st with fm := releaseAll (treeSectors d st) st.fm } := by
  obtain ⟨d1, hdir, hind1, hdbl1, hlen1⟩ :=
    resize_direct_zero (List.range 12) d st (List.nodup_range _)
  rw [show ((List.range 12).map (fun i => d.direct.getD i 0)).filter (fun s => s ≠ 0)
        = directSectors d from rfl] at hdir
  simp only [inode_resize, inode_resize_go]
  rw [hdir]
  dsimp only
  by_cases hind : d.indirect = 0
  · rw [if_pos (show d1.indirect = 0 ∧ (0:Nat) ≤ 12 * BLOCK_SECTOR_SIZE
        from ⟨hind1.trans hind, Nat.zero_le _⟩)]
    refine ⟨rfl, ?_⟩
    dsimp only
    rw [treeSectors, if_pos hind, if_pos (hio hind)]
    simp only [List.append_nil]
  · rw [if_neg (show ¬(d1.indirect = 0 ∧ (0:Nat) ≤ 12 * BLOCK_SECTOR_SIZE)
        from fun hc => hind (hind1 ▸ hc.1))]
    rw [if_neg (show ¬ d1.indirect = 0 from fun h => hind (hind1 ▸ h))]
    dsimp only
    rw [hind1]
    obtain ⟨buf1, hloop⟩ := resize_indirect_zero (List.range 128)
      (st.disk d.indirect) { st with fm := releaseAll (directSectors d) st.fm }
      (List.nodup_range _)
    rw [show ((List.range 128).map (st.disk d.indirect)).filter (fun s => s ≠ 0)
          = blockSectors (st.disk d.indirect) from rfl] at hloop
    rw [hloop]
    dsimp only
    rw [if_pos (show d.indirect ≠ 0 ∧ (0:Nat) ≤ 12 * 512 from ⟨hind, Nat.zero_le _⟩)]
    dsimp only
    rw [hdbl1]
    by_cases hdbl : d.doubly = 0
    · rw [if_pos (show d.doubly = 0 ∧ (0:Nat) ≤ (12 + 128) * BLOCK_SECTOR_SIZE
          from ⟨hdbl, Nat.zero_le _⟩)]
      refine ⟨rfl, ?_⟩
      dsimp only
      rw [treeSectors, if_neg hind, if_pos hdbl, List.append_nil]
      simp only [releaseAll_append]
      rfl
    · rw [if_neg (show ¬(d.doubly = 0 ∧ (0:Nat) ≤ (12 + 128) * BLOCK_SECTOR_SIZE)
          from fun hc => hdbl hc.1)]
      rw [if_neg hdbl]
      dsimp only
      rcases resize_doubly_zero (List.range 128) (st.disk d.doubly)
          { st with fm := free_map_release d.indirect
                              (releaseAll (blockSectors (st.disk d.indirect))
                                (releaseAll (directSectors d) st.fm)) }
          (List.nodup_range _) with ⟨buf2, hd2⟩ | ⟨buf2, hd2⟩ <;>
      · rw [show ((List.range 128).map (st.disk d.doubly)).takeWhile (fun s => s ≠ 0)
              = doublyReach (st.disk d.doubly) from rfl] at hd2
        rw [hd2]
        dsimp only
        rw [if_pos (show d.doubly ≠ 0 ∧ (0:Nat) ≤ (12 + 128) * BLOCK_SECTOR_SIZE
            from ⟨hdbl, Nat.zero_le _⟩)]
        refine ⟨rfl, ?_⟩
        dsimp only
        rw [treeSectors, if_neg hind, if_neg hdbl]
        simp only [releaseAll_append]
        rfl


/-- C4: inode_remove only sets the removed flag and deallocates nothing;
a close that leaves open_cnt positive changes nothing but the counter,
so existing openers keep reading and writing the data; the close that
brings open_cnt of a removed inode to zero frees every tree sector by
resizing to length 0 and then releases the inode's own sector, so the
free-sector count returns to its value from before the file's sectors
(and the inode's sector) were allocated.  The last conjunct: on a
doubly-indirect block whose null entries only follow non-null ones
(the layout resize maintains), the torn-down entries (doublyReach) are
exactly all allocated entries (blockSectors). -/
theorem inode_deferred_delete :
    (∀ i : MemInode, inode_remove i
        = { sector := i.sector, open_cnt := i.open_cnt, removed := true,
            deny_write_cnt := i.deny_write_cnt })
    ∧ (∀ (i : MemInode) (d : InodeDisk) (st : FsState), i.open_cnt - 1 ≠ 0 →
        inode_close i d st = (some { i with open_cnt := i.open_cnt - 1 }, st))
    ∧ (∀ (i : MemInode) (d : InodeDisk) (st : FsState),
        i.open_cnt = 1 → i.removed = true →
        (d.indirect = 0 → d.doubly = 0) →
        (treeSectors d st ++ [i.sector]).Nodup →
        (∀ s ∈ treeSectors d st ++ [i.sector],
            s < st.fm.length ∧ st.fm.getD s false = true) →
        (inode_close i d st).1 = none
        ∧ freeCount (inode_close i d st).2.fm
            = freeCount st.fm + (treeSectors d st).length + 1)
    ∧ (∀ blk : Block,
        (∀ b, b < 128 → ∀ a, a ≤ b → blk a = 0 → blk b = 0) →
        doublyReach blk = blockSectors blk) := by
  refine ⟨fun i => rfl, ?_, ?_, ?_⟩
  · intro i d st h
    simp only [inode_close]
    rw [if_neg h]
  · intro i d st hopen hrem hio hnd hall
    have hz := inode_resize_zero d st hio
    have hcnt : i.open_cnt - 1 = 0 := by rw [hopen]; rfl
    have hfm : free_map_release i.sector (releaseAll (treeSectors d st) st.fm)
        = releaseAll (treeSectors d st ++ [i.sector]) st.fm := by
      rw [releaseAll_append]
      rfl
    constructor
    · simp only [inode_close]
      rw [if_pos hcnt, if_pos hrem]
    · simp only [inode_close]
      rw [if_pos hcnt, if_pos hrem]
      dsimp only
      rw [hz.2]
      dsimp only
      rw [hfm, freeCount_releaseAll _ _ hnd hall]
      simp [List.length_append]
      omega
  · intro blk hpre
    have hgetD : ∀ k, k < 128 → ((List.range 128).map blk).getD k 0 = blk k := by
      intro k hk
      rw [List.getD_eq_getElem _ _ (by simpa using hk)]
      simp
    simp only [doublyReach, blockSectors]
    apply takeWhile_eq_filter_of_zero_tail
    intro a b hab hb h0
    have hb' : b < 128 := by simpa using hb
    have ha' : a < 128 := lt_of_le_of_lt hab hb'
    rw [hgetD a ha'] at h0
    rw [hgetD b hb']
    exact hpre b hb' a hab h0

/-- An in-memory inode for the witness: last opener of a removed inode at
sector 30. -/
def lastOpener : MemInode :=
  { sector := 30, open_cnt := 1, removed := true, deny_write_cnt := 0 }

/-- A two-sector file (direct pointers 1 and 2), no indirect blocks. -/
def dTwo : InodeDisk :=
  { length := 1024, magic := 0x494e4f44,
    direct := [1, 2, 0, 0, 0, 0, 0, 0, 0, 0, 0, 0], indirect := 0, doubly := 0,
    itype := 0 }

/-- A 31-sector free map with exactly sectors 1, 2 and 30 allocated. -/
def fm31 : FsState :=
  { disk := fun _ => zeroBlock,
    fm := (List.range 31).map (fun k => k == 1 || k == 2 || k == 30) }

set_option maxRecDepth 40000 in
/-- Witness for C4 at concrete inputs: remove flips only the flag; closing
at open_cnt 5 leaves the state alone; the last close of the removed
two-sector file frees sectors 1, 2 and 30, returning the free count
from 28 to 31 = 28 + 2 + 1; and on the all-allocated block the
teardown reach covers every entry. -/
theorem inode_deferred_delete_witness :
    inode_remove lastOpener
      = { sector := lastOpener.sector, open_cnt := lastOpener.open_cnt,
          removed := true, deny_write_cnt := lastOpener.deny_write_cnt }
    ∧ inode_close { lastOpener with open_cnt := 5 } dTwo fm31
        = (some { lastOpener with open_cnt := 4 }, fm31)
    ∧ (inode_close lastOpener dTwo fm31).1 = none
    ∧ freeCount (inode_close lastOpener dTwo fm31).2.fm
        = freeCount fm31.fm + (treeSectors dTwo fm31).length + 1
    ∧ doublyReach oneBlock = blockSectors oneBlock := by
  obtain ⟨h1, h2, h3, h4⟩ := inode_deferred_delete
  have hc := h3 lastOpener dTwo fm31 (by decide) (by decide)
    (fun h => rfl) (by decide) (by decide)
  exact ⟨h1 lastOpener, h2 _ dTwo fm31 (by decide), hc.1, hc.2,
    h4 oneBlock (by decide)⟩


set_option maxRecDepth 2000000 in
/-- C2: running inode_resize on the empty inode with target 7168 bytes
(14 sectors) against a free map holding exactly 14 free sectors: the
14th allocation (the first leaf behind the indirect block, recorded
only in the local pointer buffer) succeeds, the 15th fails, and the
rollback restores the inode fields but cannot see that leaf, so one
sector leaks: the free count drops from 14 to 13 instead of returning
to 14 as the claim requires. -/
theorem resize_rollback_leaks_sector :
    (inode_resize dEmpty 7168 st14).1 = false
    ∧ (inode_resize dEmpty 7168 st14).2.1.length = dEmpty.length
    ∧ (inode_resize dEmpty 7168 st14).2.1.direct = dEmpty.direct
    ∧ (inode_resize dEmpty 7168 st14).2.1.indirect = dEmpty.indirect
    ∧ (inode_resize dEmpty 7168 st14).2.1.doubly = dEmpty.doubly
    ∧ freeCount st14.fm = 14
    ∧ freeCount (inode_resize dEmpty 7168 st14).2.2.fm = 13 := by
  refine ⟨rfl, rfl, by decide, rfl, rfl, by decide, by decide⟩

end PintosFS
